import Mathlib

/-!
# Verification of the `mcts` crate (Monte Carlo Tree Search engine)

Shallow embedding of `src/mcts/src/lib.rs`.  The Rust trait `Mcts` (the
game capability: `player`, `turns`, `play`, `over`, `winner`) becomes a
structure of functions.  The arena tree (`Tree`, `Node`), `expand`,
`select`, `backpropagate` and the driver `Mcts::mcts` are translated
directly.

Modelling choices, stated once:
* Machine integers (`u32`, `usize`) become `Nat`; none of the counters can
  overflow in any property below, so no wrap-around modelling is needed.
* The `f64` field `initiative` is stored symbolically: the source only ever
  writes `INFINITY` (at node creation) or the value
  `wins/sims + EXPLORE*sqrt(log10(round)/sims)` (in `update_initiative`),
  so a `Score` records which of the two was written, with the arguments.
  The real-number meaning is `Score.sem : Score → EReal`.
  The `f64` comparison `>` used by `select` is abstracted as a parameter
  `gt : Score → Score → Bool`: comparisons of floating-point values of
  transcendental expressions are not decidably representable, and no
  property below depends on the outcome of a finite-vs-finite comparison.
* The wall-clock loop `while now.elapsed().as_millis() < DURATION` runs
  some finite number `n` of iterations; `n` is a parameter.
* `rand::thread_rng` draws are oracles: `Oracles.pick round` drives the
  random child choice after an in-loop expansion, `Oracles.rollout round`
  is the winner returned by the round-th call of `Node::simulate`
  (the rollout itself is embedded separately as `simulateGo`, with the
  random move choice as an oracle `moves : Nat → Nat`).
* Rust panics become explicit results.  `Vec` indexing out of bounds is
  the `Err.oob` panic; `Option::unwrap` on `None` is `Err.unwrapNone`;
  the explicit `panic!("Error: could not find most simulated node.")` is
  `Err.invariant`.  Arena reads through `Tree.borrow_node` total-ise the
  access with a default node: every such read performed by the algorithm
  on a constructible tree is in bounds (this is proved where needed),
  except `root.children[0]` in the final phase of `mcts`, which is exactly
  where the source can go out of bounds and which is modelled precisely.
-/

namespace MctsLib

/-- Distinct Rust panic sources inside `Mcts::mcts`. -/
inductive Err where
  | oob        -- `Vec` index out of bounds (`root.children[0]` on an empty vector)
  | unwrapNone -- `Option::unwrap` on `None`
  | invariant  -- `panic!("Error: could not find most simulated node.")`
deriving DecidableEq

/-- Symbolic content of the `f64` field `initiative`: the source writes either
`INFINITY` (`Node::new`) or the score computed by `update_initiative` from
`(wins, sims, round)`. -/
inductive Score where
  | inf : Score
  | val (wins sims round : Nat) : Score
deriving DecidableEq

/-- `const EXPLORE: f64 = 0.5`. -/
noncomputable def EXPLORE : ℝ := 0.5

/-- `const THRESHOLD: u32 = 3`. -/
def THRESHOLD : Nat := 3

/-- Real-number meaning of a stored score: `INFINITY` is `⊤`;
`update_initiative` stores
`(wins as f64)/(sims as f64) + EXPLORE * ((round as f64).log10() / sims as f64).sqrt()`. -/
noncomputable def Score.sem : Score → EReal
  | .inf => ⊤
  | .val w s r =>
      (((w : ℝ) / (s : ℝ) + EXPLORE * Real.sqrt (Real.logb 10 (r : ℝ) / (s : ℝ)) : ℝ) : EReal)

/-- The Rust trait `Mcts`: the game capability the engine consumes. -/
structure Mcts (σ π τ : Type) where
  player : σ → π
  turns : σ → List τ
  play : σ → τ → σ
  over : σ → Bool
  winner : σ → Option π

/-- `struct Node<G>`: one vertex of the search tree. -/
structure Node (σ τ : Type) where
  idx : Nat
  parent : Nat
  children : List Nat
  state : σ
  action : Option τ
  wins : Nat
  sims : Nat
  initiative : Score

/-- `struct Tree<G>`: the arena of nodes plus the root index. -/
structure Tree (σ τ : Type) where
  arena : List (Node σ τ)
  root : Nat

variable {σ π τ : Type}

instance [Inhabited σ] : Inhabited (Node σ τ) :=
  ⟨⟨0, 0, [], default, none, 0, 0, .inf⟩⟩

/-- Replace the element at index `i` by `f` of it; identity when out of bounds. -/
def modifyAt (l : List α) (i : Nat) (f : α → α) : List α :=
  match l[i]? with
  | some a => l.set i (f a)
  | none => l

/-- `Tree::borrow_node`: `&self.arena[idx]`, total-ised with a default node
(the Rust access panics out of bounds; all in-algorithm reads are in bounds). -/
def Tree.borrow_node [Inhabited σ] (t : Tree σ τ) (i : Nat) : Node σ τ :=
  t.arena.getD i default

/-- `Node::new`. -/
def Node.new (idx parent : Nat) (state : σ) (action : Option τ) : Node σ τ :=
  ⟨idx, parent, [], state, action, 0, 0, .inf⟩

/-- `Node::update_initiative`: stores the score computed from the node's
current `wins`, `sims` and the given `round` (symbolically; see `Score.sem`). -/
def Node.update_initiative (n : Node σ τ) (round : Nat) : Node σ τ :=
  { n with initiative := .val n.wins n.sims round }

/-- `Tree::new`: a single root node at index 0. -/
def Tree.new (state : σ) : Tree σ τ :=
  ⟨[Node.new 0 0 state none], 0⟩

/-- One iteration of the `for action in ...turns()` loop of `Tree::expand`:
clone the snapshot of node `idx`, play the action, push the child
(index = current arena length) and record its index in the parent's
`children`. -/
def expandStep [Inhabited σ] (g : Mcts σ π τ) (idx : Nat) (t : Tree σ τ) (action : τ) :
    Tree σ τ :=
  let state := g.play (t.borrow_node idx).state action
  let child : Node σ τ := Node.new t.arena.length idx state (some action)
  { t with
    arena := modifyAt (t.arena ++ [child]) idx
      (fun n => { n with children := n.children ++ [child.idx] }) }

/-- `Tree::expand`. -/
def Tree.expand [Inhabited σ] (g : Mcts σ π τ) (t : Tree σ τ) (idx : Nat) : Tree σ τ :=
  (g.turns (t.borrow_node idx).state).foldl (expandStep g idx) t

/-- The per-node update performed by one step of `Tree::backpropagate`:
bump `wins` when the node's snapshot's player equals the winner, bump `sims`,
then `update_initiative(round)`. -/
def bpStep [DecidableEq π] (g : Mcts σ π τ) (winner : Option π) (round : Nat)
    (n : Node σ τ) : Node σ τ :=
  let n := if some (g.player n.state) = winner then { n with wins := n.wins + 1 } else n
  let n := { n with sims := n.sims + 1 }
  n.update_initiative round

/-- The `while idx != 0` loop of `Tree::backpropagate`, with explicit fuel.
In every constructible tree `parent < idx` for non-root nodes, so fuel `idx`
runs the loop to completion (proved below via the chain characterisation). -/
def bpGo [Inhabited σ] [DecidableEq π] (g : Mcts σ π τ) (winner : Option π) (round : Nat) :
    Nat → Tree σ τ → Nat → Tree σ τ
  | 0, t, _ => t
  | fuel+1, t, idx =>
    if idx = 0 then t
    else
      let t' : Tree σ τ := { t with arena := modifyAt t.arena idx (bpStep g winner round) }
      bpGo g winner round fuel t' (t'.borrow_node idx).parent

/-- `Tree::backpropagate`. -/
def Tree.backpropagate [Inhabited σ] [DecidableEq π] (g : Mcts σ π τ) (t : Tree σ τ)
    (idx : Nat) (winner : Option π) (round : Nat) : Tree σ τ :=
  bpGo g winner round idx t idx

/-- The parent chain from `idx` up to, excluding, the root (same fuel pattern
as `bpGo`; never contains `0`). -/
def chainGo [Inhabited σ] (t : Tree σ τ) : Nat → Nat → List Nat
  | 0, _ => []
  | fuel+1, idx =>
    if idx = 0 then [] else idx :: chainGo t fuel (t.borrow_node idx).parent

/-- The parent chain from `idx` up to, excluding, the root. -/
def Tree.chain [Inhabited σ] (t : Tree σ τ) (idx : Nat) : List Nat :=
  chainGo t idx idx

/-- The `while !node.children.is_empty()` loop of `Tree::select`, transcribed
faithfully: the source reassigns `node` to `self.arena[node.children[0]]`
*before* the `for child in node.children.iter()` loop, so the fold below runs
over the **first child's** children, with the first child as the starting
best.  `gt` is the `f64` comparison `>` on stored scores. -/
def selGo [Inhabited σ] (gt : Score → Score → Bool) (t : Tree σ τ) :
    Nat → Node σ τ → Nat
  | 0, node => node.idx
  | fuel+1, node =>
    if node.children.isEmpty then node.idx
    else
      let first := t.borrow_node (node.children.headD 0)
      selGo gt t fuel (first.children.foldl (fun best c =>
        if gt (t.borrow_node c).initiative best.initiative then t.borrow_node c else best)
        first)

/-- `Tree::select`.  In every constructible tree the walk strictly increases
the node index, so fuel `arena.length` runs the loop to completion. -/
def Tree.select [Inhabited σ] (gt : Score → Score → Bool) (t : Tree σ τ) : Nat :=
  selGo gt t t.arena.length (t.borrow_node t.root)

/-- Oracles for the two `rand::thread_rng()` draws of `Mcts::mcts`:
`pick round` drives `children.choose(..)` after an in-loop expansion, and
`rollout round` is the winner produced by the round-th `Node::simulate` call. -/
structure Oracles (π : Type) where
  rollout : Nat → Option π
  pick : Nat → Nat

/-- One iteration of the timed `while` loop of `Mcts::mcts` at round number
`round`: select a leaf, expand it (replacing it with a random child) when it
has been simulated more than `THRESHOLD` times, simulate (`O.rollout round`
is the winner the rollout produces), backpropagate. -/
def mctsIter [Inhabited σ] [DecidableEq π] (g : Mcts σ π τ) (gt : Score → Score → Bool)
    (O : Oracles π) (round : Nat) (t : Tree σ τ) : Tree σ τ :=
  let leaf := t.select gt
  let step : Tree σ τ × Nat :=
    if THRESHOLD < (t.borrow_node leaf).sims then
      let t' := t.expand g leaf
      let cs := (t'.borrow_node leaf).children
      (t', if cs.isEmpty then leaf else cs.getD (O.pick round % cs.length) leaf)
    else (t, leaf)
  let winner := O.rollout round
  Tree.backpropagate g step.1 step.2 winner round

/-- The timed `while` loop of `Mcts::mcts`, running `n` iterations starting
at round number `round`. -/
def mctsLoop [Inhabited σ] [DecidableEq π] (g : Mcts σ π τ) (gt : Score → Score → Bool)
    (O : Oracles π) : Nat → Nat → Tree σ τ → Tree σ τ
  | 0, _, t => t
  | n+1, round, t => mctsLoop g gt O n (round + 1) (mctsIter g gt O round t)

/-- The final `for child in root.children.iter()` fold of `Mcts::mcts`:
keep the child with strictly more simulations, scanning in order. -/
def robustFold [Inhabited σ] (t : Tree σ τ) (l : List Nat) (b : Nat) : Nat :=
  l.foldl (fun best c =>
    if (t.borrow_node best).sims < (t.borrow_node c).sims then c else best) b

/-- `Mcts::mcts`, returning the chosen turn (or the panic that occurs) paired
with the number of `Node::simulate` invocations. -/
def Mcts.mcts [Inhabited σ] [DecidableEq π] (g : Mcts σ π τ) (s : σ)
    (gt : Score → Score → Bool) (O : Oracles π) (n : Nat) : Except Err τ × Nat :=
  let t0 : Tree σ τ := Tree.new s
  let t := t0.expand g t0.root
  if (t.borrow_node t.root).children.length = 1 then
    match (t.borrow_node ((t.borrow_node t.root).children.headD 0)).action with
    | some a => (.ok a, 0)
    | none => (.error .unwrapNone, 0)
  else
    let t2 := mctsLoop g gt O n 0 t
    let root := t2.borrow_node t2.root
    match root.children with
    | [] => (.error .oob, n)  -- `root.children[0]` panics: index out of bounds
    | b :: _ =>
      let best := robustFold t2 root.children b
      match (t2.borrow_node best).action with
      | some a => (.ok a, n)
      | none => (.error .invariant, n)

/-- Result of a rollout: the winner, the `unwrap` panic on an empty `turns()`
vector, or fuel exhaustion (the source loop would still be running). -/
inductive SimRes (π : Type) where
  | winner (w : Option π)
  | panicked
  | fuelOut
deriving DecidableEq

/-- The `while !state.over()` loop of `Node::simulate`: choose a random legal
turn (`moves step` drives the draw), `unwrap` it, play it. -/
def simulateGo (g : Mcts σ π τ) (moves : Nat → Nat) : Nat → Nat → σ → SimRes π
  | 0, _, _ => .fuelOut
  | fuel+1, step, s =>
    if g.over s then .winner (g.winner s)
    else
      match g.turns s with
      | [] => .panicked  -- `choose` returns `None`; `unwrap` panics
      | a :: rest =>
          simulateGo g moves fuel (step + 1)
            (g.play s ((a :: rest).getD (moves step % (a :: rest).length) a))

/-- `Node::simulate`. -/
def Node.simulate (g : Mcts σ π τ) (nd : Node σ τ) (moves : Nat → Nat)
    (fuel : Nat) : SimRes π :=
  simulateGo g moves fuel 0 nd.state

/-- Parent indices strictly decrease away from the root; every tree built by
`Tree.new` and `Tree.expand` satisfies this (children are appended with an
index larger than their parent's). -/
def ParentDec [Inhabited σ] (t : Tree σ τ) : Prop :=
  ∀ i, 0 < i → i < t.arena.length → (t.borrow_node i).parent < i

/-- The tree obtained from one mutation step of `backpropagate`. -/
def bpModify [DecidableEq π] (g : Mcts σ π τ) (w : Option π) (r : Nat) (t : Tree σ τ)
    (i : Nat) : Tree σ τ :=
  { t with arena := modifyAt t.arena i (bpStep g w r) }

/-- Trees reachable by the tree API as `Mcts::mcts` uses it: `Tree::new`
followed by any sequence of in-bounds `expand` and `backpropagate` calls
(out-of-bounds calls panic in Rust before mutating anything). -/
inductive Reachable [Inhabited σ] [DecidableEq π] (g : Mcts σ π τ) : Tree σ τ → Prop where
  | new (s : σ) : Reachable g (Tree.new s)
  | expand {t : Tree σ τ} (idx : Nat) : Reachable g t → idx < t.arena.length →
      Reachable g (t.expand g idx)
  | backprop {t : Tree σ τ} (idx : Nat) (w : Option π) (r : Nat) : Reachable g t →
      idx < t.arena.length → Reachable g (t.backpropagate g idx w r)

/-- Every node of the tree satisfies `wins ≤ sims`. -/
def WinsLe [Inhabited σ] (t : Tree σ τ) : Prop :=
  ∀ i, i < t.arena.length → (t.borrow_node i).wins ≤ (t.borrow_node i).sims

/-- States reachable from `s` by playing legal turns at non-terminal states. -/
inductive Reach (g : Mcts σ π τ) : σ → σ → Prop where
  | refl (s : σ) : Reach g s s
  | step {s u : σ} (a : τ) : Reach g s u → g.over u = false → a ∈ g.turns u →
      Reach g s (g.play u a)

/-- Structural well-formedness of an arena tree; established by `Tree.new`
and preserved by `expand` and `backpropagate`. -/
structure WF [Inhabited σ] (t : Tree σ τ) : Prop where
  pos : 0 < t.arena.length
  rootz : t.root = 0
  idxe : ∀ i, i < t.arena.length → (t.borrow_node i).idx = i
  par0 : (t.borrow_node 0).parent = 0
  parlt : ∀ i, 0 < i → i < t.arena.length → (t.borrow_node i).parent < i
  childmem : ∀ i, i < t.arena.length → ∀ c ∈ (t.borrow_node i).children,
      i < c ∧ c < t.arena.length ∧ (t.borrow_node c).parent = i
  parmem : ∀ j, 0 < j → j < t.arena.length →
      j ∈ (t.borrow_node ((t.borrow_node j).parent)).children
  nodup : ∀ i, i < t.arena.length → ((t.borrow_node i).children).Nodup
  acts : ∀ j, 0 < j → j < t.arena.length → ((t.borrow_node j).action).isSome

/-- The root's list of children indices. -/
def rootKids [Inhabited σ] (t : Tree σ τ) : List Nat :=
  (t.borrow_node 0).children

/-- Sum of the `sims` counters of the given nodes. -/
def sumSims [Inhabited σ] (t : Tree σ τ) (l : List Nat) : Nat :=
  (l.map (fun c => (t.borrow_node c).sims)).sum

/-- The running-maximum fold over a list with a `Nat` key, taking a later
element only when its key is strictly greater (so exact ties keep the
earliest element). -/
def foldMax (key : α → Nat) (b : α) (l : List α) : α :=
  l.foldl (fun best c => if key best < key c then c else best) b

/-- Modelled from the spec: the walk of `select()` as specified.
`SpecSelects t i r` holds when, starting at node `i` and repeatedly moving to
the child with the strictly greatest real-valued score — exact ties broken by
earliest insertion order, i.e. the chosen child sits at a position all of
whose predecessors score strictly less while no child scores more — the walk
stops at `r`, the first node without children. -/
inductive SpecSelects [Inhabited σ] (t : Tree σ τ) : Nat → Nat → Prop where
  | leaf {i : Nat} : (t.borrow_node i).children = [] → SpecSelects t i i
  | step {i c r : Nat} (k : Nat) :
      ((t.borrow_node i).children)[k]? = some c →
      (∀ d ∈ (t.borrow_node i).children,
        (t.borrow_node d).initiative.sem ≤ (t.borrow_node c).initiative.sem) →
      (∀ d ∈ (t.borrow_node i).children.take k,
        (t.borrow_node d).initiative.sem < (t.borrow_node c).initiative.sem) →
      SpecSelects t c r → SpecSelects t i r

/-- A tiny game over `Nat` states: state `0` has two legal turns, state `1`
has one, every other state below `100` has none; states from `100` on are
terminal.  Playing a turn jumps to the turn's value. -/
def gEx : Mcts Nat Bool Nat where
  player := fun s => s % 2 == 0
  turns := fun s => if s = 0 then [10, 20] else if s = 1 then [7] else []
  play := fun _ a => a
  over := fun s => decide (100 ≤ s)
  winner := fun s => some (s % 2 == 0)

/-- A trivial game that is already over in every state. -/
def gW : Mcts Unit Bool Unit where
  player := fun _ => true
  turns := fun _ => []
  play := fun s _ => s
  over := fun _ => true
  winner := fun _ => some true

/-- A concrete score comparison (used only to instantiate theorems that hold
for every comparison function). -/
def gt0 : Score → Score → Bool := fun _ _ => false

/-- Concrete oracles (used only to instantiate theorems that hold for every
oracle). -/
def O0 : Oracles Bool where
  rollout := fun _ => some true
  pick := fun _ => 0

/-- The example tree after expanding the root and backpropagating a win from
leaf `1` with round counter `1`. -/
def exTree2 : Tree Nat Nat :=
  ((Tree.new 0 : Tree Nat Nat).expand gEx 0).backpropagate gEx 1 (some true) 1

/-! ## Basic lemmas about the arena primitives -/

theorem modifyAt_length (l : List α) (i : Nat) (f : α → α) :
    (modifyAt l i f).length = l.length := by
  unfold modifyAt
  cases h : l[i]? with
  | none => rfl
  | some a => simp

theorem getElem?_modifyAt_self {l : List α} {i : Nat} (f : α → α) (h : i < l.length) :
    (modifyAt l i f)[i]? = some (f l[i]) := by
  unfold modifyAt
  rw [List.getElem?_eq_getElem h]
  exact List.getElem?_set_eq_of_lt _ (by simpa using h)

theorem getElem?_modifyAt_ne {l : List α} {i j : Nat} (f : α → α) (h : j ≠ i) :
    (modifyAt l i f)[j]? = l[j]? := by
  unfold modifyAt
  cases hh : l[i]? with
  | none => rfl
  | some a => exact List.getElem?_set_ne (Ne.symm h)

theorem lt_length_of_getElem?_eq_some {l : List α} {i : Nat} {a : α}
    (h : l[i]? = some a) : i < l.length := by
  by_contra hc
  rw [List.getElem?_eq_none (by omega)] at h
  exact Option.noConfusion h

theorem getElem?_modifyAt_of_getElem? {l : List α} {i : Nat} {a : α} (f : α → α)
    (h : l[i]? = some a) : (modifyAt l i f)[i]? = some (f a) := by
  have hi : i < l.length := lt_length_of_getElem?_eq_some h
  unfold modifyAt
  rw [h]
  exact List.getElem?_set_eq_of_lt _ (by simpa using hi)

theorem borrow_node_getElem? {σ τ : Type} [Inhabited σ] {t : Tree σ τ} {i : Nat}
    (h : i < t.arena.length) : t.arena[i]? = some (t.borrow_node i) := by
  rw [List.getElem?_eq_getElem h, Tree.borrow_node, List.getD_eq_getElem?_getD,
    List.getElem?_eq_getElem h]
  rfl

variable [Inhabited σ]

theorem borrow_node_def (t : Tree σ τ) (i : Nat) :
    t.borrow_node i = (t.arena[i]?).getD default := by
  simp [Tree.borrow_node]

theorem borrow_node_of_getElem? {t : Tree σ τ} {i : Nat} {n : Node σ τ}
    (h : t.arena[i]? = some n) : t.borrow_node i = n := by
  rw [borrow_node_def, h]; rfl

theorem borrow_node_oob {t : Tree σ τ} {i : Nat} (h : t.arena.length ≤ i) :
    t.borrow_node i = default := by
  rw [borrow_node_def, List.getElem?_eq_none h]; rfl

/-! ## Characterisation of `Tree.expand` -/

theorem expandStep_root (g : Mcts σ π τ) (idx : Nat) (t : Tree σ τ) (a : τ) :
    (expandStep g idx t a).root = t.root := rfl

theorem expand_fold_root (g : Mcts σ π τ) (idx : Nat) :
    ∀ (l : List τ) (t : Tree σ τ), (l.foldl (expandStep g idx) t).root = t.root := by
  intro l
  induction l with
  | nil => intro t; rfl
  | cons a rest ih =>
    intro t
    rw [List.foldl_cons, ih]
    rfl

theorem Tree.expand_root (g : Mcts σ π τ) (t : Tree σ τ) (idx : Nat) :
    (t.expand g idx).root = t.root :=
  expand_fold_root g idx _ t

/-- Full characterisation of the expansion fold: the arena grows by one node
per action, the parent's `children` gains the new indices in order, all other
nodes are untouched, and the `k`-th new node is `Node.new` of the `k`-th
action played on the parent's snapshot. -/
theorem expand_fold_spec (g : Mcts σ π τ) (idx : Nat) (s0 : σ) :
    ∀ (l : List τ) (t : Tree σ τ), idx < t.arena.length → (t.borrow_node idx).state = s0 →
    (l.foldl (expandStep g idx) t).arena.length = t.arena.length + l.length ∧
    (∀ j, j ≠ idx → j < t.arena.length →
      (l.foldl (expandStep g idx) t).borrow_node j = t.borrow_node j) ∧
    ((l.foldl (expandStep g idx) t).borrow_node idx = { t.borrow_node idx with
        children := (t.borrow_node idx).children ++ List.range' t.arena.length l.length }) ∧
    (∀ k, (hk : k < l.length) →
      (l.foldl (expandStep g idx) t).borrow_node (t.arena.length + k) =
        Node.new (t.arena.length + k) idx (g.play s0 (l.get ⟨k, hk⟩))
          (some (l.get ⟨k, hk⟩))) := by
  intro l
  induction l with
  | nil =>
    intro t hidx hstate
    refine ⟨rfl, fun j _ _ => rfl, ?_, fun k hk => absurd hk (by simp)⟩
    simp
  | cons a rest ih =>
    intro t hidx hstate
    set L := t.arena.length with hL
    -- the single step
    set child : Node σ τ := Node.new L idx (g.play (t.borrow_node idx).state a) (some a)
      with hchild
    have hstep : expandStep g idx t a = { t with
        arena := modifyAt (t.arena ++ [child]) idx
          (fun n => { n with children := n.children ++ [L] }) } := rfl
    set t1 := expandStep g idx t a with ht1
    have harena1 : t1.arena = modifyAt (t.arena ++ [child]) idx
        (fun n => { n with children := n.children ++ [L] }) := by rw [hstep]
    have hlen1 : t1.arena.length = L + 1 := by
      rw [harena1, modifyAt_length, List.length_append, List.length_singleton]
    have hidx1 : idx < t1.arena.length := by omega
    -- node `idx` in `t1`
    have hbase : (t.arena ++ [child])[idx]? = some (t.borrow_node idx) := by
      rw [List.getElem?_append_left hidx]
      exact borrow_node_getElem? hidx
    have hat1 : t1.borrow_node idx =
        { t.borrow_node idx with children := (t.borrow_node idx).children ++ [L] } := by
      apply borrow_node_of_getElem?
      rw [harena1]
      exact getElem?_modifyAt_of_getElem? _ hbase
    have hstate1 : (t1.borrow_node idx).state = s0 := by rw [hat1]; exact hstate
    -- old nodes unchanged in `t1`
    have hold1 : ∀ j, j ≠ idx → j < L → t1.borrow_node j = t.borrow_node j := by
      intro j hj hjL
      rw [borrow_node_def, harena1, getElem?_modifyAt_ne _ hj,
        List.getElem?_append_left hjL, ← borrow_node_def]
    -- the new node sits at position `L` in `t1`
    have hnew1 : t1.borrow_node L = child := by
      apply borrow_node_of_getElem?
      rw [harena1, getElem?_modifyAt_ne _ (by omega), List.getElem?_concat_length]
    obtain ⟨ihlen, ihold, ihat, ihnew⟩ := ih t1 hidx1 hstate1
    have hfold : (a :: rest).foldl (expandStep g idx) t = rest.foldl (expandStep g idx) t1 := by
      rw [List.foldl_cons]
    refine ⟨?_, ?_, ?_, ?_⟩
    · rw [hfold, ihlen, hlen1]
      simp [List.length_cons]
      omega
    · intro j hj hjL
      rw [hfold, ihold j hj (by omega), hold1 j hj hjL]
    · rw [hfold, ihat, hat1]
      have : L + 1 = L + 1 := rfl
      rw [hlen1]
      simp only [List.length_cons, List.append_assoc, List.singleton_append]
      rw [← List.range'_succ L rest.length 1]
    · intro k hk
      rw [hfold]
      match k with
      | 0 =>
        have hne : L + 0 ≠ idx := by omega
        rw [ihold (L + 0) hne (by omega)]
        have : L + 0 = L := by omega
        rw [this, hnew1, hchild, hstate]
        rfl
      | Nat.succ k' =>
        have hk' : k' < rest.length := by simpa [List.length_cons] using hk
        have := ihnew k' hk'
        rw [hlen1] at this
        have harith : L + 1 + k' = L + (k' + 1) := by omega
        rw [harith] at this
        rw [this]
        rfl

theorem Tree.expand_eq_foldl (g : Mcts σ π τ) (t : Tree σ τ) (idx : Nat) :
    t.expand g idx = (g.turns (t.borrow_node idx).state).foldl (expandStep g idx) t := rfl

theorem expand_length (g : Mcts σ π τ) (t : Tree σ τ) {idx : Nat}
    (h : idx < t.arena.length) :
    (t.expand g idx).arena.length
      = t.arena.length + (g.turns (t.borrow_node idx).state).length :=
  (expand_fold_spec g idx _ _ t h rfl).1

theorem expand_borrow_ne (g : Mcts σ π τ) (t : Tree σ τ) {idx j : Nat}
    (h : idx < t.arena.length) (hj : j ≠ idx) (hjL : j < t.arena.length) :
    (t.expand g idx).borrow_node j = t.borrow_node j :=
  (expand_fold_spec g idx _ _ t h rfl).2.1 j hj hjL

theorem expand_borrow_idx (g : Mcts σ π τ) (t : Tree σ τ) {idx : Nat}
    (h : idx < t.arena.length) :
    (t.expand g idx).borrow_node idx = { t.borrow_node idx with
      children := (t.borrow_node idx).children
        ++ List.range' t.arena.length (g.turns (t.borrow_node idx).state).length } :=
  (expand_fold_spec g idx _ _ t h rfl).2.2.1

theorem expand_new_node (g : Mcts σ π τ) (t : Tree σ τ) {idx k : Nat}
    (h : idx < t.arena.length)
    (hk : k < (g.turns (t.borrow_node idx).state).length) :
    (t.expand g idx).borrow_node (t.arena.length + k) =
      Node.new (t.arena.length + k) idx
        (g.play (t.borrow_node idx).state ((g.turns (t.borrow_node idx).state).get ⟨k, hk⟩))
        (some ((g.turns (t.borrow_node idx).state).get ⟨k, hk⟩)) :=
  (expand_fold_spec g idx _ _ t h rfl).2.2.2 k hk

theorem expand_of_no_turns (g : Mcts σ π τ) (t : Tree σ τ) (idx : Nat)
    (h : g.turns (t.borrow_node idx).state = []) : t.expand g idx = t := by
  rw [Tree.expand_eq_foldl, h]
  rfl

/-! ## Characterisation of `Tree.backpropagate` -/

section Backprop

variable [DecidableEq π]

theorem bpStep_parent (g : Mcts σ π τ) (w : Option π) (r : Nat) (n : Node σ τ) :
    (bpStep g w r n).parent = n.parent := by
  unfold bpStep Node.update_initiative
  split <;> rfl

theorem bpStep_children (g : Mcts σ π τ) (w : Option π) (r : Nat) (n : Node σ τ) :
    (bpStep g w r n).children = n.children := by
  unfold bpStep Node.update_initiative
  split <;> rfl

theorem bpStep_state (g : Mcts σ π τ) (w : Option π) (r : Nat) (n : Node σ τ) :
    (bpStep g w r n).state = n.state := by
  unfold bpStep Node.update_initiative
  split <;> rfl

theorem bpStep_action (g : Mcts σ π τ) (w : Option π) (r : Nat) (n : Node σ τ) :
    (bpStep g w r n).action = n.action := by
  unfold bpStep Node.update_initiative
  split <;> rfl

theorem bpStep_idx (g : Mcts σ π τ) (w : Option π) (r : Nat) (n : Node σ τ) :
    (bpStep g w r n).idx = n.idx := by
  unfold bpStep Node.update_initiative
  split <;> rfl

theorem bpStep_sims (g : Mcts σ π τ) (w : Option π) (r : Nat) (n : Node σ τ) :
    (bpStep g w r n).sims = n.sims + 1 := by
  unfold bpStep Node.update_initiative
  split <;> rfl

theorem bpStep_wins (g : Mcts σ π τ) (w : Option π) (r : Nat) (n : Node σ τ) :
    (bpStep g w r n).wins
      = n.wins + (if some (g.player n.state) = w then 1 else 0) := by
  unfold bpStep Node.update_initiative
  split <;> simp_all

theorem bpStep_initiative (g : Mcts σ π τ) (w : Option π) (r : Nat) (n : Node σ τ) :
    (bpStep g w r n).initiative = .val (bpStep g w r n).wins (bpStep g w r n).sims r := by
  unfold bpStep Node.update_initiative
  split <;> rfl

theorem bpModify_borrow (g : Mcts σ π τ) (w : Option π) (r : Nat) (t : Tree σ τ)
    {i : Nat} (hi : i < t.arena.length) (j : Nat) :
    (bpModify g w r t i).borrow_node j =
      if j = i then bpStep g w r (t.borrow_node j) else t.borrow_node j := by
  by_cases hj : j = i
  · subst hj
    simp only [if_pos rfl]
    exact borrow_node_of_getElem?
      (getElem?_modifyAt_of_getElem? _ (borrow_node_getElem? hi))
  · rw [if_neg hj, borrow_node_def, borrow_node_def]
    show (modifyAt t.arena i (bpStep g w r))[j]?.getD default = t.arena[j]?.getD default
    rw [getElem?_modifyAt_ne _ hj]

theorem bpModify_length (g : Mcts σ π τ) (w : Option π) (r : Nat) (t : Tree σ τ)
    (i : Nat) : (bpModify g w r t i).arena.length = t.arena.length := by
  unfold bpModify
  exact modifyAt_length _ _ _

theorem bpModify_parent (g : Mcts σ π τ) (w : Option π) (r : Nat) (t : Tree σ τ)
    {i : Nat} (hi : i < t.arena.length) (j : Nat) :
    ((bpModify g w r t i).borrow_node j).parent = (t.borrow_node j).parent := by
  rw [bpModify_borrow g w r t hi j]
  split
  · exact bpStep_parent ..
  · rfl

theorem chainGo_zero (t : Tree σ τ) (i : Nat) : chainGo t 0 i = [] := rfl

theorem chainGo_succ (t : Tree σ τ) (f i : Nat) :
    chainGo t (f+1) i = if i = 0 then [] else i :: chainGo t f (t.borrow_node i).parent :=
  rfl

/-- `chainGo` only depends on the parent pointers. -/
theorem chainGo_congr {t t' : Tree σ τ}
    (h : ∀ j, (t'.borrow_node j).parent = (t.borrow_node j).parent) :
    ∀ fuel i, chainGo t' fuel i = chainGo t fuel i := by
  intro fuel
  induction fuel with
  | zero => intro i; rfl
  | succ f ih =>
    intro i
    unfold chainGo
    by_cases hi : i = 0
    · simp [hi]
    · rw [if_neg hi, if_neg hi, h i, ih]

/-- `0` never occurs on a parent chain. -/
theorem chainGo_pos (t : Tree σ τ) :
    ∀ fuel i j, j ∈ chainGo t fuel i → 0 < j := by
  intro fuel
  induction fuel with
  | zero => intro i j h; exact absurd h (by simp [chainGo])
  | succ f ih =>
    intro i j h
    unfold chainGo at h
    by_cases hi : i = 0
    · rw [if_pos hi] at h
      exact absurd h (by simp)
    · rw [if_neg hi] at h
      rcases List.mem_cons.mp h with h | h
      · omega
      · exact ih _ j h

/-- Chain members are bounded by the start index and in bounds. -/
theorem chainGo_le (t : Tree σ τ) (hp : ParentDec t) :
    ∀ fuel i, i < t.arena.length → ∀ j, j ∈ chainGo t fuel i → j ≤ i ∧ j < t.arena.length := by
  intro fuel
  induction fuel with
  | zero => intro i _ j h; exact absurd h (by simp [chainGo])
  | succ f ih =>
    intro i hi j h
    unfold chainGo at h
    by_cases hi0 : i = 0
    · rw [if_pos hi0] at h
      exact absurd h (by simp)
    · rw [if_neg hi0] at h
      rcases List.mem_cons.mp h with h | h
      · exact ⟨le_of_eq h, h ▸ hi⟩
      · have hpar : (t.borrow_node i).parent < i := hp i (by omega) hi
        have := ih (t.borrow_node i).parent (by omega) j h
        omega

/-- With fuel at least the start index, the chain is fuel-independent. -/
theorem chainGo_fuel (t : Tree σ τ) (hp : ParentDec t) :
    ∀ i, i < t.arena.length → ∀ fuel, i ≤ fuel → chainGo t fuel i = t.chain i := by
  intro i
  induction i using Nat.strong_induction_on with
  | _ i ihs =>
    intro hi fuel hfuel
    by_cases hi0 : i = 0
    · subst hi0
      cases fuel with
      | zero => rfl
      | succ f =>
        show chainGo t (f+1) 0 = chainGo t 0 0
        unfold chainGo
        simp
    · obtain ⟨f, rfl⟩ : ∃ f, fuel = f + 1 := ⟨fuel - 1, by omega⟩
      obtain ⟨i', rfl⟩ : ∃ i', i = i' + 1 := ⟨i - 1, by omega⟩
      show chainGo t (f+1) (i'+1) = chainGo t (i'+1) (i'+1)
      unfold chainGo
      rw [if_neg (by omega), if_neg (by omega)]
      have hpar : (t.borrow_node (i'+1)).parent < i' + 1 := hp _ (by omega) hi
      rw [ihs _ hpar (by omega) f (by omega), ihs _ hpar (by omega) i' (by omega)]

theorem bpModify_parentDec (g : Mcts σ π τ) (w : Option π) (r : Nat) {t : Tree σ τ}
    {i : Nat} (hi : i < t.arena.length) (hp : ParentDec t) :
    ParentDec (bpModify g w r t i) := by
  intro j hj hjl
  rw [bpModify_length] at hjl
  rw [bpModify_parent g w r t hi j]
  exact hp j hj hjl

/-- Core characterisation of the backpropagation loop: with fuel at least the
start index, every node on the chain is updated by `bpStep` exactly once and
every other node is untouched. -/
theorem bpGo_spec (g : Mcts σ π τ) (w : Option π) (r : Nat) :
    ∀ (fuel : Nat) (t : Tree σ τ) (i : Nat), ParentDec t → i < t.arena.length → i ≤ fuel →
    (bpGo g w r fuel t i).arena.length = t.arena.length ∧
    ∀ j, (bpGo g w r fuel t i).borrow_node j =
      if j ∈ chainGo t fuel i then bpStep g w r (t.borrow_node j) else t.borrow_node j := by
  intro fuel
  induction fuel with
  | zero =>
    intro t i hp hi hfuel
    refine ⟨rfl, fun j => ?_⟩
    rw [if_neg (by simp [chainGo])]
    rfl
  | succ f ih =>
    intro t i hp hi hfuel
    by_cases hi0 : i = 0
    · subst hi0
      refine ⟨rfl, fun j => ?_⟩
      have : chainGo t (f+1) 0 = [] := by unfold chainGo; simp
      rw [this, if_neg (by simp)]
      rfl
    · have hstep : bpGo g w r (f+1) t i =
          bpGo g w r f (bpModify g w r t i) ((bpModify g w r t i).borrow_node i).parent := by
        show (if i = 0 then t else _) = _
        rw [if_neg hi0]
        rfl
      set t' := bpModify g w r t i with ht'
      have hpar' : ∀ j, (t'.borrow_node j).parent = (t.borrow_node j).parent :=
        fun j => bpModify_parent g w r t hi j
      have hlen' : t'.arena.length = t.arena.length := bpModify_length ..
      have hp' : ParentDec t' := bpModify_parentDec g w r hi hp
      have hpi : (t.borrow_node i).parent < i := hp i (by omega) hi
      set p := (t.borrow_node i).parent with hpdef
      have hchain : chainGo t (f+1) i = i :: chainGo t f p := by
        rw [chainGo_succ, if_neg hi0]
      obtain ⟨ihlen, ihget⟩ := ih t' p hp' (by omega) (by omega)
      have hchain' : chainGo t' f p = chainGo t f p := chainGo_congr hpar' f p
      have hpar'' : (t'.borrow_node i).parent = p := by rw [hpar' i]
      constructor
      · rw [hstep, hpar'', ihlen, hlen']
      · intro j
        rw [hstep, hpar'']
        rw [ihget j, hchain', hchain]
        by_cases hji : j = i
        · subst hji
          have hnot : j ∉ chainGo t f p := by
            intro hmem
            have := chainGo_le t hp f p (by omega) j hmem
            omega
          rw [if_neg hnot, if_pos (List.mem_cons_self _ _)]
          rw [ht', bpModify_borrow g w r t hi j, if_pos rfl]
        · have hbj : t'.borrow_node j = t.borrow_node j := by
            rw [ht', bpModify_borrow g w r t hi j, if_neg hji]
          rw [hbj]
          by_cases hmem : j ∈ chainGo t f p
          · rw [if_pos hmem, if_pos (List.mem_cons.mpr (Or.inr hmem))]
          · rw [if_neg hmem, if_neg (by
              intro hc
              rcases List.mem_cons.mp hc with hc | hc
              · exact hji hc
              · exact hmem hc)]

/-- `Tree.backpropagate` updates exactly the chain from `idx` (excluding the
root) by `bpStep`, and touches nothing else. -/
theorem backpropagate_borrow (g : Mcts σ π τ) (t : Tree σ τ) (idx : Nat)
    (w : Option π) (r : Nat) (hp : ParentDec t) (hidx : idx < t.arena.length) (j : Nat) :
    (t.backpropagate g idx w r).borrow_node j =
      if j ∈ t.chain idx then bpStep g w r (t.borrow_node j) else t.borrow_node j :=
  (bpGo_spec g w r idx t idx hp hidx (le_refl idx)).2 j

theorem backpropagate_length (g : Mcts σ π τ) (t : Tree σ τ) (idx : Nat)
    (w : Option π) (r : Nat) (hp : ParentDec t) (hidx : idx < t.arena.length) :
    (t.backpropagate g idx w r).arena.length = t.arena.length :=
  (bpGo_spec g w r idx t idx hp hidx (le_refl idx)).1

theorem bpGo_root (g : Mcts σ π τ) (w : Option π) (r : Nat) :
    ∀ (fuel : Nat) (t : Tree σ τ) (i : Nat), (bpGo g w r fuel t i).root = t.root := by
  intro fuel
  induction fuel with
  | zero => intro t i; rfl
  | succ f ih =>
    intro t i
    show (if i = 0 then t else _).root = t.root
    by_cases hi : i = 0
    · rw [if_pos hi]
    · rw [if_neg hi, ih]

theorem backpropagate_root_field (g : Mcts σ π τ) (t : Tree σ τ) (idx : Nat)
    (w : Option π) (r : Nat) : (t.backpropagate g idx w r).root = t.root :=
  bpGo_root g w r idx t idx

end Backprop

/-- `ParentDec` as a decidable bounded quantifier, for concrete evaluation. -/
theorem parentDec_iff (t : Tree σ τ) :
    ParentDec t ↔ ∀ i ∈ List.range t.arena.length, 0 < i → (t.borrow_node i).parent < i := by
  constructor
  · intro h i hi h0
    exact h i h0 (List.mem_range.mp hi)
  · intro h i h0 hi
    exact h i (List.mem_range.mpr hi) h0

/-! ## Claim C5: `Tree::expand` -/

/-- **C5.** `Tree::expand(i)` appends exactly one new child of node `i` per
element of the snapshot's `turns()` sequence, in that order: the parent's
`children` list is extended by the consecutive indices starting at the old
arena length, the `k`-th new node is freshly created from the parent's
snapshot with the `k`-th legal action applied, carries that action, and its
index is the arena length at the moment it is appended; an empty sequence
leaves the tree unchanged.  (`i` must be in bounds: the Rust indexing panics
otherwise.) -/
theorem C5_expand (g : Mcts σ π τ) (t : Tree σ τ) (i : Nat) (h : i < t.arena.length) :
    (t.expand g i).arena.length
      = t.arena.length + (g.turns (t.borrow_node i).state).length ∧
    ((t.expand g i).borrow_node i).children
      = (t.borrow_node i).children
        ++ List.range' t.arena.length (g.turns (t.borrow_node i).state).length ∧
    (∀ j, j ≠ i → j < t.arena.length → (t.expand g i).borrow_node j = t.borrow_node j) ∧
    (∀ k, (hk : k < (g.turns (t.borrow_node i).state).length) →
      (t.expand g i).borrow_node (t.arena.length + k) =
        Node.new (t.arena.length + k) i
          (g.play (t.borrow_node i).state ((g.turns (t.borrow_node i).state).get ⟨k, hk⟩))
          (some ((g.turns (t.borrow_node i).state).get ⟨k, hk⟩))) ∧
    (g.turns (t.borrow_node i).state = [] → t.expand g i = t) := by
  refine ⟨expand_length g t h, ?_, fun j hj hjl => expand_borrow_ne g t h hj hjl,
    fun k hk => expand_new_node g t h hk, expand_of_no_turns g t i⟩
  rw [expand_borrow_idx g t h]

/-- Witness for C5 at a concrete input: expanding the root of the fresh tree
for `gEx`'s two-action initial state. -/
theorem C5_expand_witness :
    ((Tree.new 0 : Tree Nat Nat).expand gEx 0).arena.length
      = (Tree.new 0 : Tree Nat Nat).arena.length
        + (gEx.turns (((Tree.new 0 : Tree Nat Nat)).borrow_node 0).state).length :=
  (C5_expand gEx (Tree.new 0) 0 (by decide)).1

/-! ## Claim C4: `Tree::backpropagate` -/

/-- **C4.** `backpropagate(leaf, winner, r)` adds exactly 1 to `sims` on every
node of the parent chain from `leaf` up to (excluding) the root, adds 1 to
`wins` on exactly those chain nodes whose snapshot's `player()` equals the
winner, leaves every node off the chain entirely unchanged, and in particular
leaves the root's counters untouched.  (Hypotheses: parent indices decrease
away from the root — true of every constructible tree — and `leaf` in bounds.) -/
theorem C4_backpropagate [DecidableEq π] (g : Mcts σ π τ) (t : Tree σ τ) (leaf : Nat)
    (w : Option π) (r : Nat) (hp : ParentDec t) (hleaf : leaf < t.arena.length) :
    (∀ j ∈ t.chain leaf,
      ((t.backpropagate g leaf w r).borrow_node j).sims = (t.borrow_node j).sims + 1 ∧
      ((t.backpropagate g leaf w r).borrow_node j).wins
        = (t.borrow_node j).wins
          + (if some (g.player (t.borrow_node j).state) = w then 1 else 0)) ∧
    (∀ j, j ∉ t.chain leaf → (t.backpropagate g leaf w r).borrow_node j = t.borrow_node j) ∧
    ((t.backpropagate g leaf w r).borrow_node 0).sims = (t.borrow_node 0).sims ∧
    ((t.backpropagate g leaf w r).borrow_node 0).wins = (t.borrow_node 0).wins := by
  have hroot : (0 : Nat) ∉ t.chain leaf := by
    intro hmem
    exact absurd (chainGo_pos t leaf leaf 0 hmem) (by omega)
  refine ⟨?_, ?_, ?_, ?_⟩
  · intro j hj
    rw [backpropagate_borrow g t leaf w r hp hleaf j, if_pos hj, bpStep_sims, bpStep_wins]
    exact ⟨rfl, rfl⟩
  · intro j hj
    rw [backpropagate_borrow g t leaf w r hp hleaf j, if_neg hj]
  · rw [backpropagate_borrow g t leaf w r hp hleaf 0, if_neg hroot]
  · rw [backpropagate_borrow g t leaf w r hp hleaf 0, if_neg hroot]

/-- Witness for C4 at a concrete input: backpropagating a win from leaf `1`
of the expanded example tree. -/
theorem C4_backpropagate_witness :
    ((((Tree.new 0 : Tree Nat Nat).expand gEx 0).backpropagate gEx 1 (some true) 1
        ).borrow_node 0).sims
      = (((Tree.new 0 : Tree Nat Nat).expand gEx 0).borrow_node 0).sims :=
  (C4_backpropagate gEx ((Tree.new 0 : Tree Nat Nat).expand gEx 0) 1 (some true) 1
    ((parentDec_iff _).mpr (by decide)) (by decide)).2.2.1

/-! ## Claim C2: the score formula -/

/-- **C2.**  Scores: (1) a freshly created node (`Node::new`; this covers the
root at creation and every child created by `expand`) has `sims = 0` and
score `+∞`; (2) every node appended by `expand` has `sims = 0` and score
`+∞`; (3) after `backpropagate` updates a node on the chain using round
counter `r`, that node's score equals
`wins/sims + 0.5 * sqrt(log10 r / sims)` computed from its updated counters. -/
theorem C2_score [DecidableEq π] (g : Mcts σ π τ) :
    (∀ (idx parent : Nat) (s : σ) (a : Option τ),
      (Node.new idx parent s a).sims = 0 ∧ (Node.new idx parent s a).initiative.sem = ⊤) ∧
    (∀ (t : Tree σ τ) (i : Nat), i < t.arena.length →
      ∀ j, t.arena.length ≤ j → j < (t.expand g i).arena.length →
        ((t.expand g i).borrow_node j).sims = 0 ∧
        ((t.expand g i).borrow_node j).initiative.sem = ⊤) ∧
    (∀ (t : Tree σ τ) (leaf : Nat) (w : Option π) (r : Nat), ParentDec t →
      leaf < t.arena.length → ∀ j ∈ t.chain leaf,
        ((t.backpropagate g leaf w r).borrow_node j).initiative.sem =
          (((((t.backpropagate g leaf w r).borrow_node j).wins : ℝ)
              / (((t.backpropagate g leaf w r).borrow_node j).sims : ℝ)
            + (0.5 : ℝ) * Real.sqrt (Real.logb 10 (r : ℝ)
              / (((t.backpropagate g leaf w r).borrow_node j).sims : ℝ)) : ℝ) : EReal)) := by
  refine ⟨fun idx parent s a => ⟨rfl, rfl⟩, ?_, ?_⟩
  · intro t i hi j hj hj'
    rw [expand_length g t hi] at hj'
    obtain ⟨k, rfl⟩ : ∃ k, j = t.arena.length + k := ⟨j - t.arena.length, by omega⟩
    have hk : k < (g.turns (t.borrow_node i).state).length := by omega
    rw [expand_new_node g t hi hk]
    exact ⟨rfl, rfl⟩
  · intro t leaf w r hp hleaf j hj
    rw [backpropagate_borrow g t leaf w r hp hleaf j, if_pos hj, bpStep_initiative]
    simp only [Score.sem, EXPLORE]

/-- Witness for C2 at concrete inputs: a fresh node, a child created by
expansion, and a node updated by a backpropagation with round counter `1`. -/
theorem C2_score_witness :
    ((Node.new 5 2 (3 : Nat) (none : Option Nat)).sims = 0 ∧
      (Node.new 5 2 (3 : Nat) (none : Option Nat)).initiative.sem = ⊤) ∧
    ((((Tree.new 0 : Tree Nat Nat).expand gEx 0).borrow_node 1).sims = 0 ∧
      (((Tree.new 0 : Tree Nat Nat).expand gEx 0).borrow_node 1).initiative.sem = ⊤) ∧
    (exTree2.borrow_node 1).initiative.sem =
      ((((exTree2.borrow_node 1).wins : ℝ) / ((exTree2.borrow_node 1).sims : ℝ)
        + (0.5 : ℝ) * Real.sqrt (Real.logb 10 ((1 : Nat) : ℝ)
            / ((exTree2.borrow_node 1).sims : ℝ)) : ℝ) : EReal) :=
  ⟨(C2_score gEx).1 5 2 3 none,
   (C2_score gEx).2.1 (Tree.new 0) 0 (by decide) 1 (by decide) (by decide),
   (C2_score gEx).2.2 ((Tree.new 0 : Tree Nat Nat).expand gEx 0) 1 (some true) 1
     ((parentDec_iff _).mpr (by decide)) (by decide) 1 (by decide)⟩

/-! ## Claim C8: `wins ≤ sims` on all reachable trees -/

theorem bpModify_oob [DecidableEq π] (g : Mcts σ π τ) (w : Option π) (r : Nat)
    (t : Tree σ τ) {i : Nat} (hi : t.arena.length ≤ i) : bpModify g w r t i = t := by
  unfold bpModify modifyAt
  rw [List.getElem?_eq_none hi]

theorem bpStep_winsLe [DecidableEq π] (g : Mcts σ π τ) (w : Option π) (r : Nat)
    (n : Node σ τ) (h : n.wins ≤ n.sims) : (bpStep g w r n).wins ≤ (bpStep g w r n).sims := by
  rw [bpStep_wins, bpStep_sims]
  split <;> omega

theorem bpGo_winsLe [DecidableEq π] (g : Mcts σ π τ) (w : Option π) (r : Nat) :
    ∀ (fuel : Nat) (t : Tree σ τ) (i : Nat), WinsLe t → WinsLe (bpGo g w r fuel t i) := by
  intro fuel
  induction fuel with
  | zero => intro t i h; exact h
  | succ f ih =>
    intro t i h
    show WinsLe (if i = 0 then t else _)
    by_cases hi : i = 0
    · rw [if_pos hi]; exact h
    · rw [if_neg hi]
      show WinsLe (bpGo g w r f (bpModify g w r t i) ((bpModify g w r t i).borrow_node i).parent)
      apply ih
      by_cases hil : i < t.arena.length
      · intro j hjl
        rw [bpModify_length] at hjl
        rw [bpModify_borrow g w r t hil j]
        split
        · exact bpStep_winsLe g w r _ (h j hjl)
        · exact h j hjl
      · rw [bpModify_oob g w r t (by omega)]
        exact h

/-- **C8.** In every tree reachable by a sequence of `Tree::new`, `expand`
and `backpropagate` calls, every node satisfies `wins ≤ sims` (both are
`Nat`s, hence non-negative). -/
theorem C8_winsLe [DecidableEq π] (g : Mcts σ π τ) (t : Tree σ τ) (h : Reachable g t) :
    ∀ i, i < t.arena.length → (t.borrow_node i).wins ≤ (t.borrow_node i).sims := by
  induction h with
  | new s =>
    intro i hi
    match i, hi with
    | 0, _ => exact Nat.le_refl 0
  | expand idx hr hidx ih =>
    rename_i t'
    intro i hi
    rw [expand_length _ _ hidx] at hi
    by_cases hlt : i < t'.arena.length
    · by_cases hii : i = idx
      · subst hii
        rw [expand_borrow_idx _ _ hidx]
        exact ih i hlt
      · rw [expand_borrow_ne _ _ hidx hii hlt]
        exact ih i hlt
    · obtain ⟨k, rfl⟩ : ∃ k, i = t'.arena.length + k := ⟨i - t'.arena.length, by omega⟩
      rw [expand_new_node _ _ hidx (by omega)]
      exact Nat.le_refl 0
  | backprop idx w r hr hidx ih =>
    rename_i t'
    intro i hi
    exact bpGo_winsLe g w r idx t' idx ih i hi

/-- Witness for C8: the invariant evaluated on a concretely reached tree. -/
theorem C8_winsLe_witness :
    ((((Tree.new 0 : Tree Nat Nat).expand gEx 0).backpropagate gEx 1 (some true) 0
      ).borrow_node 1).wins
    ≤ ((((Tree.new 0 : Tree Nat Nat).expand gEx 0).backpropagate gEx 1 (some true) 0
      ).borrow_node 1).sims :=
  C8_winsLe gEx _
    (Reachable.backprop 1 (some true) 0 (Reachable.expand 0 (Reachable.new 0) (by decide))
      (by decide))
    1 (by decide)

/-! ## Claim C10: `Node::simulate` -/

theorem simulateGo_succ (g : Mcts σ π τ) (moves : Nat → Nat) (fuel step : Nat) (s : σ) :
    simulateGo g moves (fuel+1) step s =
      if g.over s then .winner (g.winner s)
      else
        match g.turns s with
        | [] => .panicked
        | a :: rest =>
            simulateGo g moves fuel (step + 1)
              (g.play s ((a :: rest).getD (moves step % (a :: rest).length) a)) := rfl

theorem getD_mem {l : List α} {i : Nat} (d : α) (h : i < l.length) : l.getD i d ∈ l := by
  rw [List.getD_eq_getElem?_getD, List.getElem?_eq_getElem h]
  exact List.getElem_mem h

theorem simulateGo_safe (g : Mcts σ π τ) (s0 : σ) (moves : Nat → Nat)
    (hpre : ∀ u, Reach g s0 u → g.over u = false → g.turns u ≠ []) :
    ∀ (fuel step : Nat) (s : σ), Reach g s0 s →
      simulateGo g moves fuel step s ≠ .panicked ∧
      ∀ w, simulateGo g moves fuel step s = .winner w →
        ∃ u, Reach g s0 u ∧ g.over u = true ∧ w = g.winner u := by
  intro fuel
  induction fuel with
  | zero =>
    intro step s _
    exact ⟨fun h => SimRes.noConfusion h, fun w h => SimRes.noConfusion h⟩
  | succ f ih =>
    intro step s hr
    rw [simulateGo_succ]
    cases hov : g.over s with
    | true =>
      simp only [if_true]
      refine ⟨fun h => SimRes.noConfusion h, fun w h => ⟨s, hr, hov, ?_⟩⟩
      cases h
      rfl
    | false =>
      simp only [Bool.false_eq_true, if_false]
      cases ht : g.turns s with
      | nil => exact absurd ht (hpre s hr hov)
      | cons a rest =>
        apply ih
        apply Reach.step _ hr hov
        rw [ht]
        apply getD_mem
        exact Nat.mod_lt _ (by simp)

/-- **C10.**  The rollout is panic-free exactly under the stated
precondition: (1) whenever every state reachable from the node's snapshot by
legal plays has, while non-terminal, a non-empty `turns()` list, `simulate`
never reaches the `unwrap` panic, and whatever winner it returns is `winner()`
of a reachable terminal state; (2) on a node whose (reachable) snapshot is
non-terminal with zero legal actions, `simulate` aborts in the `unwrap`
instead of returning a winner.  (The unbounded `while` loop is run on fuel;
exhausting the fuel is reported as `fuelOut`, not a winner.) -/
theorem C10_simulate :
    (∀ (g : Mcts σ π τ) (nd : Node σ τ) (moves : Nat → Nat) (fuel : Nat),
      (∀ u, Reach g nd.state u → g.over u = false → g.turns u ≠ []) →
      Node.simulate g nd moves fuel ≠ .panicked ∧
      ∀ w, Node.simulate g nd moves fuel = .winner w →
        ∃ u, Reach g nd.state u ∧ g.over u = true ∧ w = g.winner u) ∧
    Node.simulate gEx (Node.new 0 0 50 (none : Option Nat)) (fun _ => 0) 1 = .panicked := by
  constructor
  · intro g nd moves fuel hpre
    exact simulateGo_safe g nd.state moves hpre fuel 0 nd.state (Reach.refl _)
  · rfl

/-- Witness for C10: the precondition holds for the terminal-everywhere game
`gW`, under which the theorem yields panic-freedom of a concrete rollout. -/
theorem C10_simulate_witness :
    Node.simulate gW (Node.new 0 0 () (none : Option Unit)) (fun _ => 0) 1 ≠ .panicked :=
  (C10_simulate.1 gW (Node.new 0 0 () (none : Option Unit)) (fun _ => 0) 1
    (fun u _ h => absurd h (by cases u; decide))).1

/-! ## Claim C1: `Tree::select` -/

/-- **C1** (code-bug exhibit).  On the concretely reachable tree `exTree2`
(root expanded to two children, one backpropagation through child 1), the
source's `select` walk returns index 1 for *every* score comparison function,
because the loop reassigns `node` to `children[0]` before iterating and then
ranges over the **first child's** children; the walk written in the spec
(`SpecSelects`) stops at index 2 — and only there — since child 2's score
`+∞` strictly exceeds child 1's. -/
theorem C1_select_bug :
    (∀ gt : Score → Score → Bool, exTree2.select gt = 1) ∧
    SpecSelects exTree2 0 2 ∧
    (∀ j, SpecSelects exTree2 0 j → j = 2) := by
  have h1 : (exTree2.borrow_node 1).initiative = .val 1 1 1 := by decide
  have h2 : (exTree2.borrow_node 2).initiative = .inf := by decide
  have hk0 : (exTree2.borrow_node 0).children = [1, 2] := by decide
  have hk2 : (exTree2.borrow_node 2).children = [] := by decide
  have hsem1 : (exTree2.borrow_node 1).initiative.sem
      = (((1 : ℝ) / (1 : ℝ) + EXPLORE * Real.sqrt (Real.logb 10 (1 : ℝ) / (1 : ℝ)) : ℝ)
          : EReal) := by
    rw [h1]
    simp [Score.sem]
  have hsem2 : (exTree2.borrow_node 2).initiative.sem = ⊤ := by rw [h2]; rfl
  have hno21 : ¬ ((exTree2.borrow_node 2).initiative.sem
      ≤ (exTree2.borrow_node 1).initiative.sem) := by
    rw [hsem1, hsem2]
    intro h22
    exact EReal.coe_ne_top _ (top_le_iff.mp h22)
  refine ⟨fun gt => rfl, ?_, ?_⟩
  · refine SpecSelects.step 1 (by rw [hk0]; rfl) ?_ ?_ (SpecSelects.leaf hk2)
    · intro d _
      rw [hsem2]
      exact le_top
    · intro d hd
      rw [hk0] at hd
      have : d = 1 := by simpa using hd
      subst this
      rw [hsem1, hsem2]
      exact EReal.coe_lt_top _
  · intro j h
    cases h with
    | leaf hemp => rw [hk0] at hemp; exact absurd hemp (by simp)
    | step k hget hall htake hrec =>
      rename_i c
      match k, hget with
      | 0, hget =>
        rw [hk0] at hget hall
        have hc : 1 = c := by simpa using hget
        subst hc
        exact absurd (hall 2 (by simp)) hno21
      | 1, hget =>
        rw [hk0] at hget
        have hc : 2 = c := by simpa using hget
        subst hc
        cases hrec with
        | leaf _ => rfl
        | step k' hget' hall' htake' hrec' =>
          rw [hk2] at hget'
          simp at hget'
      | (k+2), hget =>
        rw [hk0] at hget
        simp at hget

/-- Witness for C1: the code's walk evaluated at a concrete comparison, and
the uniqueness conjunct discharged with the theorem's own derivation. -/
theorem C1_select_bug_witness :
    exTree2.select gt0 = 1 ∧ (2 : Nat) = 2 :=
  ⟨C1_select_bug.1 gt0, C1_select_bug.2.2 2 C1_select_bug.2.1⟩

/-! ## Well-formedness: establishment and preservation -/

section WFSection

variable [DecidableEq π]

theorem tree_new_length (s : σ) : (Tree.new s : Tree σ τ).arena.length = 1 := rfl

theorem tree_new_borrow (s : σ) :
    (Tree.new s : Tree σ τ).borrow_node 0 = Node.new 0 0 s none := rfl

theorem WF_new (s : σ) : WF (Tree.new s : Tree σ τ) := by
  refine ⟨Nat.one_pos, rfl, ?_, rfl, ?_, ?_, ?_, ?_, ?_⟩
  · intro i hi
    rw [tree_new_length] at hi
    have : i = 0 := by omega
    subst this
    rfl
  · intro i h0 hi
    rw [tree_new_length] at hi
    omega
  · intro i hi c hc
    rw [tree_new_length] at hi
    have : i = 0 := by omega
    subst this
    rw [tree_new_borrow] at hc
    exact absurd hc (by simp [Node.new])
  · intro j h0 hj
    rw [tree_new_length] at hj
    omega
  · intro i hi
    rw [tree_new_length] at hi
    have : i = 0 := by omega
    subst this
    rw [tree_new_borrow]
    exact List.nodup_nil
  · intro j h0 hj
    rw [tree_new_length] at hj
    omega

theorem WF_expand (g : Mcts σ π τ) {t : Tree σ τ} {idx : Nat} (hwf : WF t)
    (hidx : idx < t.arena.length) : WF (t.expand g idx) := by
  set L := t.arena.length with hL
  set m := (g.turns (t.borrow_node idx).state).length with hm
  have hlen : (t.expand g idx).arena.length = L + m := expand_length g t hidx
  -- parent pointers after expansion
  have hpar : ∀ j, j < L → ((t.expand g idx).borrow_node j).parent
      = (t.borrow_node j).parent := by
    intro j hj
    by_cases hji : j = idx
    · subst hji
      rw [expand_borrow_idx g t hidx]
    · rw [expand_borrow_ne g t hidx hji hj]
  have hnewpar : ∀ k, k < m → ((t.expand g idx).borrow_node (L + k)).parent = idx := by
    intro k hk
    rw [expand_new_node g t hidx hk]
    rfl
  have hnewkids : ∀ k, k < m → ((t.expand g idx).borrow_node (L + k)).children = [] := by
    intro k hk
    rw [expand_new_node g t hidx hk]
    rfl
  have hkidsidx : ((t.expand g idx).borrow_node idx).children
      = (t.borrow_node idx).children ++ List.range' L m := by
    rw [expand_borrow_idx g t hidx]
  have hkidsne : ∀ j, j ≠ idx → j < L → ((t.expand g idx).borrow_node j).children
      = (t.borrow_node j).children := by
    intro j hj hjl
    rw [expand_borrow_ne g t hidx hj hjl]
  refine ⟨by omega, by rw [Tree.expand_root]; exact hwf.rootz, ?_, ?_, ?_, ?_, ?_, ?_, ?_⟩
  · -- idxe
    intro i hi
    rw [hlen] at hi
    by_cases hiL : i < L
    · by_cases hii : i = idx
      · subst hii
        rw [expand_borrow_idx g t hidx]
        exact hwf.idxe i hiL
      · rw [expand_borrow_ne g t hidx hii hiL]
        exact hwf.idxe i hiL
    · obtain ⟨k, rfl⟩ : ∃ k, i = L + k := ⟨i - L, by omega⟩
      rw [expand_new_node g t hidx (by omega)]
      rfl
  · -- par0
    have h0 : 0 < L := hwf.pos
    rw [hpar 0 h0]
    exact hwf.par0
  · -- parlt
    intro i h0 hi
    rw [hlen] at hi
    by_cases hiL : i < L
    · rw [hpar i hiL]
      exact hwf.parlt i h0 hiL
    · obtain ⟨k, rfl⟩ : ∃ k, i = L + k := ⟨i - L, by omega⟩
      rw [hnewpar k (by omega)]
      omega
  · -- childmem
    intro i hi c hc
    rw [hlen] at hi
    by_cases hiL : i < L
    · have hcpar : ∀ d, d < L → (t.borrow_node d).parent = i →
          ((t.expand g idx).borrow_node d).parent = i := by
        intro d hd he
        rw [hpar d hd, he]
      by_cases hii : i = idx
      · subst hii
        rw [hkidsidx] at hc
        rcases List.mem_append.mp hc with hc | hc
        · obtain ⟨h1, h2, h3⟩ := hwf.childmem i hiL c hc
          exact ⟨h1, by omega, hcpar c h2 h3⟩
        · have := List.mem_range'_1.mp hc
          obtain ⟨k, rfl⟩ : ∃ k, c = L + k := ⟨c - L, by omega⟩
          exact ⟨by omega, by omega, hnewpar k (by omega)⟩
      · rw [hkidsne i hii hiL] at hc
        obtain ⟨h1, h2, h3⟩ := hwf.childmem i hiL c hc
        exact ⟨h1, by omega, hcpar c h2 h3⟩
    · obtain ⟨k, rfl⟩ : ∃ k, i = L + k := ⟨i - L, by omega⟩
      rw [hnewkids k (by omega)] at hc
      exact absurd hc (by simp)
  · -- parmem
    intro j h0 hj
    rw [hlen] at hj
    by_cases hjL : j < L
    · rw [hpar j hjL]
      have hpj : (t.borrow_node j).parent < L := by
        have := hwf.parlt j h0 hjL
        omega
      by_cases hpi : (t.borrow_node j).parent = idx
      · rw [hpi, hkidsidx]
        exact List.mem_append_left _ (hpi ▸ hwf.parmem j h0 hjL)
      · rw [hkidsne _ hpi hpj]
        exact hwf.parmem j h0 hjL
    · obtain ⟨k, rfl⟩ : ∃ k, j = L + k := ⟨j - L, by omega⟩
      rw [hnewpar k (by omega), hkidsidx]
      refine List.mem_append_right _ ?_
      exact List.mem_range'_1.mpr ⟨by omega, by omega⟩
  · -- nodup
    intro i hi
    rw [hlen] at hi
    by_cases hiL : i < L
    · by_cases hii : i = idx
      · subst hii
        rw [hkidsidx]
        refine List.Nodup.append (hwf.nodup i hiL) (List.nodup_range' L m) ?_
        intro a ha ha'
        have h1 := (hwf.childmem i hiL a ha).2.1
        have h2 := (List.mem_range'_1.mp ha').1
        omega
      · rw [hkidsne i hii hiL]
        exact hwf.nodup i hiL
    · obtain ⟨k, rfl⟩ : ∃ k, i = L + k := ⟨i - L, by omega⟩
      rw [hnewkids k (by omega)]
      exact List.nodup_nil
  · -- acts
    intro j h0 hj
    rw [hlen] at hj
    by_cases hjL : j < L
    · by_cases hji : j = idx
      · subst hji
        rw [expand_borrow_idx g t hidx]
        exact hwf.acts j h0 hjL
      · rw [expand_borrow_ne g t hidx hji hjL]
        exact hwf.acts j h0 hjL
    · obtain ⟨k, rfl⟩ : ∃ k, j = L + k := ⟨j - L, by omega⟩
      rw [expand_new_node g t hidx (by omega)]
      rfl

/-- Backpropagation changes no structural field of any node. -/
theorem backpropagate_struct (g : Mcts σ π τ) (t : Tree σ τ) (idx : Nat) (w : Option π)
    (r : Nat) (hp : ParentDec t) (hidx : idx < t.arena.length) (j : Nat) :
    ((t.backpropagate g idx w r).borrow_node j).parent = (t.borrow_node j).parent ∧
    ((t.backpropagate g idx w r).borrow_node j).children = (t.borrow_node j).children ∧
    ((t.backpropagate g idx w r).borrow_node j).idx = (t.borrow_node j).idx ∧
    ((t.backpropagate g idx w r).borrow_node j).action = (t.borrow_node j).action := by
  rw [backpropagate_borrow g t idx w r hp hidx j]
  split
  · exact ⟨bpStep_parent .., bpStep_children .., bpStep_idx .., bpStep_action ..⟩
  · exact ⟨rfl, rfl, rfl, rfl⟩

theorem WF_backprop (g : Mcts σ π τ) {t : Tree σ τ} {idx : Nat} (w : Option π) (r : Nat)
    (hwf : WF t) (hidx : idx < t.arena.length) : WF (t.backpropagate g idx w r) := by
  have hp : ParentDec t := hwf.parlt
  have hlen : (t.backpropagate g idx w r).arena.length = t.arena.length :=
    backpropagate_length g t idx w r hp hidx
  have hs := backpropagate_struct g t idx w r hp hidx
  refine ⟨by omega, ?_, ?_, ?_, ?_, ?_, ?_, ?_, ?_⟩
  · rw [backpropagate_root_field]; exact hwf.rootz
  · intro i hi
    rw [hlen] at hi
    rw [(hs i).2.2.1]
    exact hwf.idxe i hi
  · rw [(hs 0).1]
    exact hwf.par0
  · intro i h0 hi
    rw [hlen] at hi
    rw [(hs i).1]
    exact hwf.parlt i h0 hi
  · intro i hi c hc
    rw [hlen] at hi
    rw [(hs i).2.1] at hc
    obtain ⟨h1, h2, h3⟩ := hwf.childmem i hi c hc
    exact ⟨h1, by omega, by rw [(hs c).1]; exact h3⟩
  · intro j h0 hj
    rw [hlen] at hj
    rw [(hs j).1, (hs _).2.1]
    exact hwf.parmem j h0 hj
  · intro i hi
    rw [hlen] at hi
    rw [(hs i).2.1]
    exact hwf.nodup i hi
  · intro j h0 hj
    rw [hlen] at hj
    rw [(hs j).2.2.2]
    exact hwf.acts j h0 hj

end WFSection

/-! ## Bounds for `Tree.select` -/

theorem selGo_succ (gt : Score → Score → Bool) (t : Tree σ τ) (fuel : Nat)
    (node : Node σ τ) :
    selGo gt t (fuel+1) node =
      if node.children.isEmpty then node.idx
      else
        selGo gt t fuel
          (((t.borrow_node (node.children.headD 0)).children).foldl (fun best c =>
            if gt (t.borrow_node c).initiative best.initiative then t.borrow_node c
            else best) (t.borrow_node (node.children.headD 0))) := rfl

theorem selFold_mem (gt : Score → Score → Bool) (t : Tree σ τ) :
    ∀ (cs : List Nat) (b : Node σ τ),
      (cs.foldl (fun best c =>
        if gt (t.borrow_node c).initiative best.initiative then t.borrow_node c
        else best) b) = b ∨
      ∃ c ∈ cs, (cs.foldl (fun best c =>
        if gt (t.borrow_node c).initiative best.initiative then t.borrow_node c
        else best) b) = t.borrow_node c := by
  intro cs
  induction cs with
  | nil => intro b; exact Or.inl rfl
  | cons c cs' ih =>
    intro b
    rw [List.foldl_cons]
    by_cases hgt : gt (t.borrow_node c).initiative b.initiative
    · rw [if_pos hgt]
      rcases ih (t.borrow_node c) with h | ⟨c', hc', h⟩
      · exact Or.inr ⟨c, List.mem_cons_self c cs', h⟩
      · exact Or.inr ⟨c', List.mem_cons_of_mem c hc', h⟩
    · rw [if_neg hgt]
      rcases ih b with h | ⟨c', hc', h⟩
      · exact Or.inl h
      · exact Or.inr ⟨c', List.mem_cons_of_mem c hc', h⟩

theorem headD_mem {l : List Nat} (h : ¬ l.isEmpty) (d : Nat) : l.headD d ∈ l := by
  cases l with
  | nil => exact absurd rfl h
  | cons a l' => exact List.mem_cons_self a l'

theorem selGo_bounds (gt : Score → Score → Bool) {t : Tree σ τ} (hwf : WF t) :
    ∀ (fuel i : Nat), i < t.arena.length →
      i ≤ selGo gt t fuel (t.borrow_node i) ∧
      selGo gt t fuel (t.borrow_node i) < t.arena.length := by
  intro fuel
  induction fuel with
  | zero =>
    intro i hi
    show i ≤ (t.borrow_node i).idx ∧ (t.borrow_node i).idx < t.arena.length
    rw [hwf.idxe i hi]
    exact ⟨Nat.le_refl i, hi⟩
  | succ f ih =>
    intro i hi
    rw [selGo_succ]
    by_cases hemp : (t.borrow_node i).children.isEmpty
    · rw [if_pos hemp, hwf.idxe i hi]
      exact ⟨Nat.le_refl i, hi⟩
    · rw [if_neg hemp]
      set j0 := (t.borrow_node i).children.headD 0 with hj0
      have hj0mem : j0 ∈ (t.borrow_node i).children := headD_mem hemp 0
      obtain ⟨hij0, hj0l, _⟩ := hwf.childmem i hi j0 hj0mem
      rcases selFold_mem gt t ((t.borrow_node j0).children) (t.borrow_node j0) with
        h | ⟨c, hc, h⟩
      · rw [h]
        have := ih j0 hj0l
        omega
      · rw [h]
        obtain ⟨hjc, hcl, _⟩ := hwf.childmem j0 hj0l c hc
        have := ih c hcl
        omega

/-- With at least one root child, `select` returns a valid non-root index. -/
theorem select_pos (gt : Score → Score → Bool) {t : Tree σ τ} (hwf : WF t)
    (hne : ¬ (rootKids t).isEmpty) :
    0 < t.select gt ∧ t.select gt < t.arena.length := by
  show 0 < selGo gt t t.arena.length (t.borrow_node t.root) ∧
      selGo gt t t.arena.length (t.borrow_node t.root) < t.arena.length
  rw [hwf.rootz]
  obtain ⟨f, hf⟩ : ∃ f, t.arena.length = f + 1 := ⟨t.arena.length - 1, by have := hwf.pos; omega⟩
  have hne' : ¬ (((t.borrow_node 0).children.isEmpty) = true) := hne
  rw [hf, selGo_succ, if_neg hne']
  set j0 := (t.borrow_node 0).children.headD 0 with hj0
  have hj0mem : j0 ∈ (t.borrow_node 0).children := headD_mem hne 0
  obtain ⟨hij0, hj0l, _⟩ := hwf.childmem 0 hwf.pos j0 hj0mem
  rcases selFold_mem gt t ((t.borrow_node j0).children) (t.borrow_node j0) with
    h | ⟨c, hc, h⟩
  · rw [h]
    have := selGo_bounds gt hwf f j0 hj0l
    omega
  · rw [h]
    obtain ⟨hjc, hcl, _⟩ := hwf.childmem j0 hj0l c hc
    have := selGo_bounds gt hwf f c hcl
    omega

/-! ## Exactly one root child per backpropagation chain -/

section LoopInv

variable [DecidableEq π]

theorem chain_cons {t : Tree σ τ} (hp : ParentDec t) {i : Nat} (h0 : 0 < i)
    (hi : i < t.arena.length) :
    t.chain i = i :: t.chain ((t.borrow_node i).parent) := by
  obtain ⟨f, rfl⟩ : ∃ f, i = f + 1 := ⟨i - 1, by omega⟩
  show chainGo t (f+1) (f+1) = _
  rw [chainGo_succ, if_neg (by omega)]
  have hplt : (t.borrow_node (f+1)).parent < f + 1 := hp _ h0 hi
  rw [chainGo_fuel t hp _ (by omega) f (by omega)]

/-- The chain from a non-root node contains exactly one node whose parent is
the root. -/
theorem chain_one_rootchild {t : Tree σ τ} (hwf : WF t) :
    ∀ i, 0 < i → i < t.arena.length →
      ∃ c, c ∈ t.chain i ∧ (t.borrow_node c).parent = 0 ∧
        ∀ j ∈ t.chain i, (t.borrow_node j).parent = 0 → j = c := by
  have hp : ParentDec t := hwf.parlt
  intro i
  induction i using Nat.strong_induction_on with
  | _ i ihs =>
    intro h0 hi
    rw [chain_cons hp h0 hi]
    by_cases hpz : (t.borrow_node i).parent = 0
    · refine ⟨i, List.mem_cons_self _ _, hpz, ?_⟩
      intro j hj _
      rcases List.mem_cons.mp hj with hj | hj
      · exact hj
      · rw [hpz] at hj
        exact absurd hj (by simp [Tree.chain, chainGo_zero])
    · have hplt : (t.borrow_node i).parent < i := hp i h0 hi
      obtain ⟨c, hc, hcz, hcu⟩ := ihs _ hplt (by omega) (by omega)
      refine ⟨c, List.mem_cons_of_mem _ hc, hcz, ?_⟩
      intro j hj hjz
      rcases List.mem_cons.mp hj with hj | hj
      · exact absurd (hj ▸ hjz) hpz
      · exact hcu j hj hjz

/-! ## Sum helpers -/

theorem sum_map_add (l : List α) (f g : α → Nat) :
    (l.map (fun c => f c + g c)).sum = (l.map f).sum + (l.map g).sum := by
  induction l with
  | nil => rfl
  | cons a l' ih =>
    simp only [List.map_cons, List.sum_cons, ih]
    omega

theorem sum_ite_zero (l : List Nat) (p : Nat → Prop) [DecidablePred p]
    (h : ∀ j ∈ l, ¬ p j) : (l.map (fun j => if p j then 1 else 0)).sum = 0 := by
  induction l with
  | nil => rfl
  | cons a l' ih =>
    simp only [List.map_cons, List.sum_cons]
    rw [if_neg (h a (List.mem_cons_self a l')), ih (fun j hj => h j (List.mem_cons_of_mem a hj))]

theorem sum_ite_unique (l : List Nat) (p : Nat → Prop) [DecidablePred p] (c : Nat)
    (hnd : l.Nodup) (hc : c ∈ l) (hpc : p c) (huniq : ∀ j ∈ l, p j → j = c) :
    (l.map (fun j => if p j then 1 else 0)).sum = 1 := by
  induction l with
  | nil => exact absurd hc (by simp)
  | cons a l' ih =>
    simp only [List.map_cons, List.sum_cons]
    rcases List.nodup_cons.mp hnd with ⟨hna, hnd'⟩
    by_cases hac : a = c
    · subst hac
      rw [if_pos hpc, sum_ite_zero l' p ?_]
      intro j hj hpj
      have := huniq j (List.mem_cons_of_mem a hj) hpj
      subst this
      exact hna hj
    · rw [if_neg (fun hpa => hac (huniq a (List.mem_cons_self a l') hpa))]
      have hc' : c ∈ l' := by
        rcases List.mem_cons.mp hc with h | h
        · exact absurd h.symm hac
        · exact h
      rw [ih hnd' hc' (fun j hj hpj => huniq j (List.mem_cons_of_mem a hj) hpj)]

/-- `backpropagate` adds `1` to `sims` exactly on the chain. -/
theorem backprop_sims (g : Mcts σ π τ) (t : Tree σ τ) (idx : Nat) (w : Option π)
    (r : Nat) (hp : ParentDec t) (hidx : idx < t.arena.length) (j : Nat) :
    ((t.backpropagate g idx w r).borrow_node j).sims
      = (t.borrow_node j).sims + (if j ∈ t.chain idx then 1 else 0) := by
  rw [backpropagate_borrow g t idx w r hp hidx j]
  by_cases hj : j ∈ t.chain idx
  · rw [if_pos hj, if_pos hj, bpStep_sims]
  · rw [if_neg hj, if_neg hj]
    rfl

/-! ## One loop iteration -/

theorem mctsIter_eq (g : Mcts σ π τ) (gt : Score → Score → Bool) (O : Oracles π)
    (round : Nat) (t : Tree σ τ) :
    mctsIter g gt O round t =
      (if THRESHOLD < (t.borrow_node (t.select gt)).sims then
        Tree.backpropagate g (t.expand g (t.select gt))
          (if ((t.expand g (t.select gt)).borrow_node (t.select gt)).children.isEmpty
            then t.select gt
            else ((t.expand g (t.select gt)).borrow_node (t.select gt)).children.getD
              (O.pick round % ((t.expand g (t.select gt)).borrow_node
                (t.select gt)).children.length) (t.select gt))
          (O.rollout round) round
      else Tree.backpropagate g t (t.select gt) (O.rollout round) round) := by
  simp only [mctsIter]
  by_cases hc : THRESHOLD < (t.borrow_node (t.select gt)).sims
  · rw [if_pos hc, if_pos hc]
  · rw [if_neg hc, if_neg hc]

theorem mctsIter_spec (g : Mcts σ π τ) (gt : Score → Score → Bool) (O : Oracles π)
    (round : Nat) {t : Tree σ τ} (hwf : WF t) (hne : ¬ (rootKids t).isEmpty) :
    WF (mctsIter g gt O round t) ∧
    rootKids (mctsIter g gt O round t) = rootKids t ∧
    sumSims (mctsIter g gt O round t) (rootKids t) = sumSims t (rootKids t) + 1 := by
  obtain ⟨hl0, hll⟩ := select_pos gt hwf hne
  set leaf := t.select gt with hleaf
  -- facts about the (possibly) expanded tree and the chosen leaf
  have key : ∀ (T : Tree σ τ) (L : Nat), WF T → 0 < L → L < T.arena.length →
      rootKids T = rootKids t → sumSims T (rootKids t) = sumSims t (rootKids t) →
      WF (T.backpropagate g L (O.rollout round) round) ∧
      rootKids (T.backpropagate g L (O.rollout round) round) = rootKids t ∧
      sumSims (T.backpropagate g L (O.rollout round) round) (rootKids t)
        = sumSims t (rootKids t) + 1 := by
    intro T L hwfT hL0 hLl hkids hsums
    have hpT : ParentDec T := hwfT.parlt
    refine ⟨WF_backprop g (O.rollout round) round hwfT hLl, ?_, ?_⟩
    · show ((T.backpropagate g L (O.rollout round) round).borrow_node 0).children = _
      rw [(backpropagate_struct g T L (O.rollout round) round hpT hLl 0).2.1]
      exact hkids
    · obtain ⟨cstar, hcmem, hcz, hcu⟩ := chain_one_rootchild hwfT L hL0 hLl
      have hcstar_pos : 0 < cstar := chainGo_pos T L L cstar hcmem
      have hcstar_lt : cstar < T.arena.length := (chainGo_le T hpT L L hLl cstar hcmem).2
      have hcstar_kid : cstar ∈ rootKids t := by
        rw [← hkids]
        have := hwfT.parmem cstar hcstar_pos hcstar_lt
        rw [hcz] at this
        exact this
      have hstep : ∀ c ∈ rootKids t,
          ((T.backpropagate g L (O.rollout round) round).borrow_node c).sims
            = (T.borrow_node c).sims + (if c ∈ T.chain L then 1 else 0) := by
        intro c _
        exact backprop_sims g T L (O.rollout round) round hpT hLl c
      show ((rootKids t).map _).sum = _
      rw [List.map_congr_left hstep, sum_map_add]
      have hone : ((rootKids t).map (fun c => if c ∈ T.chain L then 1 else 0)).sum = 1 := by
        refine sum_ite_unique _ _ cstar ?_ hcstar_kid hcmem ?_
        · have := hwfT.nodup 0 hwfT.pos
          rw [← hkids]
          exact this
        · intro j hj hjc
          refine hcu j hjc ?_
          rw [← hkids] at hj
          exact (hwfT.childmem 0 hwfT.pos j hj).2.2
      rw [hone]
      have : ((rootKids t).map (fun c => (T.borrow_node c).sims)).sum
          = sumSims t (rootKids t) := hsums
      rw [this]
  rw [mctsIter_eq]
  by_cases hc : THRESHOLD < (t.borrow_node leaf).sims
  · rw [if_pos hc]
    set T := t.expand g leaf with hT
    have hwfT : WF T := WF_expand g hwf hll
    have hlenT : t.arena.length ≤ T.arena.length := by
      rw [hT, expand_length g t hll]
      omega
    have hkidsT : rootKids T = rootKids t := by
      show (T.borrow_node 0).children = (t.borrow_node 0).children
      rw [hT, expand_borrow_ne g t hll (by omega) hwf.pos]
    have hsimsT : ∀ c, c < t.arena.length →
        (T.borrow_node c).sims = (t.borrow_node c).sims := by
      intro c hcl
      by_cases hcleaf : c = leaf
      · subst hcleaf
        rw [hT, expand_borrow_idx g t hll]
      · rw [hT, expand_borrow_ne g t hll hcleaf hcl]
    have hsumT : sumSims T (rootKids t) = sumSims t (rootKids t) := by
      show ((rootKids t).map _).sum = ((rootKids t).map _).sum
      refine congrArg _ (List.map_congr_left ?_)
      intro c hcmem
      exact hsimsT c (hwf.childmem 0 hwf.pos c hcmem).2.1
    set cs := (T.borrow_node leaf).children with hcs
    by_cases hcse : cs.isEmpty
    · rw [if_pos hcse]
      exact key T leaf hwfT hl0 (by omega) hkidsT hsumT
    · rw [if_neg hcse]
      have hcs_ne : cs ≠ [] := by
        intro h
        rw [h] at hcse
        exact hcse rfl
      have hmem : cs.getD (O.pick round % cs.length) leaf ∈ cs := by
        apply getD_mem
        have : 0 < cs.length := List.length_pos.mpr hcs_ne
        exact Nat.mod_lt _ this
      obtain ⟨h1, h2, _⟩ := hwfT.childmem leaf (by omega) _ hmem
      exact key T (cs.getD (O.pick round % cs.length) leaf) hwfT (by omega) h2 hkidsT hsumT
  · rw [if_neg hc]
    exact key t leaf hwf hl0 hll rfl rfl

theorem mctsLoop_succ (g : Mcts σ π τ) (gt : Score → Score → Bool) (O : Oracles π)
    (n round : Nat) (t : Tree σ τ) :
    mctsLoop g gt O (n+1) round t = mctsLoop g gt O n (round+1) (mctsIter g gt O round t) :=
  rfl

theorem mctsLoop_spec (g : Mcts σ π τ) (gt : Score → Score → Bool) (O : Oracles π) :
    ∀ (n round : Nat) {t : Tree σ τ}, WF t → ¬ (rootKids t).isEmpty →
      WF (mctsLoop g gt O n round t) ∧
      rootKids (mctsLoop g gt O n round t) = rootKids t ∧
      sumSims (mctsLoop g gt O n round t) (rootKids t) = sumSims t (rootKids t) + n := by
  intro n
  induction n with
  | zero => intro round t hwf _; exact ⟨hwf, rfl, rfl⟩
  | succ n ih =>
    intro round t hwf hne
    rw [mctsLoop_succ]
    obtain ⟨hwf', hkids', hsum'⟩ := mctsIter_spec g gt O round hwf hne
    have hne' : ¬ (rootKids (mctsIter g gt O round t)).isEmpty := by
      rw [hkids']
      exact hne
    obtain ⟨hwf'', hkids'', hsum''⟩ := ih (round+1) hwf' hne'
    refine ⟨hwf'', by rw [hkids'', hkids'], ?_⟩
    rw [← hkids', hsum'', hkids', hsum']
    omega

/-- When the root has no children and at most `THRESHOLD` simulations, a loop
iteration is the identity (select returns the root, no expansion triggers,
and backpropagation from the root touches nothing). -/
theorem mctsIter_no_kids (g : Mcts σ π τ) (gt : Score → Score → Bool) (O : Oracles π)
    (round : Nat) {t : Tree σ τ} (hwf : WF t) (hke : rootKids t = [])
    (hs : ¬ THRESHOLD < (t.borrow_node 0).sims) : mctsIter g gt O round t = t := by
  have hsel : t.select gt = 0 := by
    show selGo gt t t.arena.length (t.borrow_node t.root) = 0
    rw [hwf.rootz]
    obtain ⟨f, hf⟩ : ∃ f, t.arena.length = f + 1 :=
      ⟨t.arena.length - 1, by have := hwf.pos; omega⟩
    rw [hf, selGo_succ, if_pos (by rw [show (t.borrow_node 0).children = [] from hke]; rfl)]
    exact hwf.idxe 0 hwf.pos
  rw [mctsIter_eq, hsel, if_neg (by exact hs)]
  rfl

theorem mctsLoop_no_kids (g : Mcts σ π τ) (gt : Score → Score → Bool) (O : Oracles π) :
    ∀ (n round : Nat) {t : Tree σ τ}, WF t → rootKids t = [] →
      ¬ THRESHOLD < (t.borrow_node 0).sims → mctsLoop g gt O n round t = t := by
  intro n
  induction n with
  | zero => intro round t _ _ _; rfl
  | succ n ih =>
    intro round t hwf hke hs
    rw [mctsLoop_succ, mctsIter_no_kids g gt O round hwf hke hs, ih (round+1) hwf hke hs]

end LoopInv

/-! ## Claim C9: sum of root children's simulation counts -/

section C9Section

variable [DecidableEq π]

theorem rootKids_expandRoot (g : Mcts σ π τ) (s : σ) :
    rootKids ((Tree.new s : Tree σ τ).expand g 0)
      = List.range' 1 ((g.turns s).length) := by
  show (((Tree.new s : Tree σ τ).expand g 0).borrow_node 0).children = _
  rw [expand_borrow_idx g _ (by rw [tree_new_length]; omega)]
  rw [tree_new_borrow]
  show ([] : List Nat) ++ _ = _
  rw [List.nil_append, tree_new_length]
  rfl

theorem expandRoot_sims_zero (g : Mcts σ π τ) (s : σ) :
    ∀ c ∈ rootKids ((Tree.new s : Tree σ τ).expand g 0),
      (((Tree.new s : Tree σ τ).expand g 0).borrow_node c).sims = 0 := by
  intro c hc
  rw [rootKids_expandRoot] at hc
  obtain ⟨h1, h2⟩ := List.mem_range'_1.mp hc
  obtain ⟨k, rfl⟩ : ∃ k, c = 1 + k := ⟨c - 1, by omega⟩
  have hk : k < ((g.turns s).length) := by omega
  have := @expand_new_node σ π τ _ g (Tree.new s : Tree σ τ) 0 k
    (by rw [tree_new_length]; omega) (by rw [tree_new_borrow]; exact hk)
  rw [show ((Tree.new s : Tree σ τ)).arena.length + k = 1 + k from by
      rw [tree_new_length]] at this
  rw [this]
  rfl

theorem sumSims_expandRoot (g : Mcts σ π τ) (s : σ) :
    sumSims ((Tree.new s : Tree σ τ).expand g 0)
      (rootKids ((Tree.new s : Tree σ τ).expand g 0)) = 0 := by
  apply List.sum_eq_zero
  intro x hx
  obtain ⟨c, hc, rfl⟩ := List.mem_map.mp hx
  exact expandRoot_sims_zero g s c hc

theorem expandRoot_root_sims (g : Mcts σ π τ) (s : σ) :
    (((Tree.new s : Tree σ τ).expand g 0).borrow_node 0).sims = 0 := by
  rw [expand_borrow_idx g _ (by rw [tree_new_length]; omega), tree_new_borrow]
  rfl

theorem match_action_snd (x : Option τ) (n : Nat) :
    (match x with
      | some a => ((Except.ok a : Except Err τ), n)
      | none => ((Except.error Err.invariant : Except Err τ), n)).2 = n := by
  cases x <;> rfl

theorem WF_expandRoot (g : Mcts σ π τ) (s : σ) :
    WF ((Tree.new s : Tree σ τ).expand g 0) :=
  WF_expand g (WF_new s) (by rw [tree_new_length]; omega)

/-- **C9** (amended).  Let `t1` be the tree right after the initial root
expansion.  (1) The root children start with zero simulations.  (2) When the
root has at least one child, running the loop for `n` iterations makes the
sum of the root children's `sims` exactly `n` — each backpropagation
increments the `sims` of exactly one root child.  (3) When the root has no
children (terminal input state), the sum stays `0` no matter how many
iterations execute.  (4) When the fast path triggers (exactly one child) the
loop never runs: zero rollouts.  (5) Otherwise `mcts` executes exactly `n`
rollout/backpropagate iterations past the initial expansion. -/
theorem C9_sum (g : Mcts σ π τ) (s : σ) (gt : Score → Score → Bool) (O : Oracles π)
    (n : Nat) :
    sumSims ((Tree.new s : Tree σ τ).expand g 0)
      (rootKids ((Tree.new s : Tree σ τ).expand g 0)) = 0 ∧
    (¬ (rootKids ((Tree.new s : Tree σ τ).expand g 0)).isEmpty →
      sumSims (mctsLoop g gt O n 0 ((Tree.new s : Tree σ τ).expand g 0))
        (rootKids (mctsLoop g gt O n 0 ((Tree.new s : Tree σ τ).expand g 0))) = n) ∧
    ((rootKids ((Tree.new s : Tree σ τ).expand g 0)).isEmpty →
      sumSims (mctsLoop g gt O n 0 ((Tree.new s : Tree σ τ).expand g 0))
        (rootKids (mctsLoop g gt O n 0 ((Tree.new s : Tree σ τ).expand g 0))) = 0) ∧
    ((rootKids ((Tree.new s : Tree σ τ).expand g 0)).length = 1 → (g.mcts s gt O n).2 = 0) ∧
    ((rootKids ((Tree.new s : Tree σ τ).expand g 0)).length ≠ 1 → (g.mcts s gt O n).2 = n) := by
  set t1 : Tree σ τ := (Tree.new s : Tree σ τ).expand g 0 with ht1
  have hwf1 : WF t1 := WF_expandRoot g s
  have hsum0 : sumSims t1 (rootKids t1) = 0 := sumSims_expandRoot g s
  refine ⟨hsum0, ?_, ?_, ?_, ?_⟩
  · intro hne
    obtain ⟨_, hkids, hsum⟩ := mctsLoop_spec g gt O n 0 hwf1 hne
    rw [hkids, hsum, hsum0]
    omega
  · intro hke
    have hke' : rootKids t1 = [] := List.isEmpty_iff.mp hke
    rw [mctsLoop_no_kids g gt O n 0 hwf1 hke'
      (by rw [expandRoot_root_sims g s]; omega), hke']
    rfl
  · intro hone
    show (Mcts.mcts g s gt O n).2 = 0
    simp only [Mcts.mcts]
    rw [if_pos ?_]
    · cases haction : ((((Tree.new s : Tree σ τ).expand g (Tree.new s : Tree σ τ).root
          ).borrow_node ((((Tree.new s : Tree σ τ).expand g (Tree.new s : Tree σ τ).root
          ).borrow_node ((Tree.new s : Tree σ τ).expand g
            (Tree.new s : Tree σ τ).root).root).children.headD 0)).action) with
      | some a => rfl
      | none => rfl
    · show (((Tree.new s : Tree σ τ).expand g (Tree.new s : Tree σ τ).root).borrow_node
        ((Tree.new s : Tree σ τ).expand g (Tree.new s : Tree σ τ).root).root
          ).children.length = 1
      rw [show ((Tree.new s : Tree σ τ).expand g (Tree.new s : Tree σ τ).root).root = 0
          from by rw [Tree.expand_root]; rfl]
      exact hone
  · intro hone
    show (Mcts.mcts g s gt O n).2 = n
    simp only [Mcts.mcts]
    rw [if_neg ?_]
    · cases hk : ((mctsLoop g gt O n 0 ((Tree.new s : Tree σ τ).expand g
          (Tree.new s : Tree σ τ).root)).borrow_node (mctsLoop g gt O n 0
          ((Tree.new s : Tree σ τ).expand g (Tree.new s : Tree σ τ).root)).root
        ).children with
      | nil => rfl
      | cons b rest => exact match_action_snd _ n
    · show ¬ (((Tree.new s : Tree σ τ).expand g (Tree.new s : Tree σ τ).root).borrow_node
        ((Tree.new s : Tree σ τ).expand g (Tree.new s : Tree σ τ).root).root
          ).children.length = 1
      rw [show ((Tree.new s : Tree σ τ).expand g (Tree.new s : Tree σ τ).root).root = 0
          from by rw [Tree.expand_root]; rfl]
      exact hone

/-- Witness for C9 at a concrete input: two root children, two iterations. -/
theorem C9_sum_witness :
    sumSims (mctsLoop gEx gt0 O0 2 0 ((Tree.new 0 : Tree Nat Nat).expand gEx 0))
      (rootKids (mctsLoop gEx gt0 O0 2 0 ((Tree.new 0 : Tree Nat Nat).expand gEx 0))) = 2 :=
  (C9_sum gEx 0 gt0 O0 2).2.1 (by decide)

/-- **C9** (counterexample to the claim as stated).  On an already-terminal
input state the loop executes one rollout/backpropagate iteration past the
initial root expansion (`mcts` reports one simulation), yet the sum of the
root children's `sims` is `0`, not `1`: no backpropagation ever increments a
root child because the root has none. -/
theorem C9_counterexample :
    (gEx.mcts 100 gt0 O0 1).2 = 1 ∧
    sumSims (mctsLoop gEx gt0 O0 1 0 ((Tree.new 100 : Tree Nat Nat).expand gEx 0))
      (rootKids (mctsLoop gEx gt0 O0 1 0 ((Tree.new 100 : Tree Nat Nat).expand gEx 0)))
      = 0 ∧
    (0 : Nat) ≠ 1 := by
  refine ⟨by decide, by decide, by decide⟩

end C9Section

/-! ## Claim C3: `mcts` on a terminal state -/

/-- **C3** (code-bug exhibit).  Calling `mcts` on a state that is already
over (state `100` of `gEx`: `over = true`, no legal turns) leaves the root
childless, and the run ends in the *index-out-of-bounds* panic at
`root.children[0]` — for every comparison function, oracle and number of loop
iterations — not in the dedicated internal-invariant panic
(`"Error: could not find most simulated node."`), which is unreachable. -/
theorem C3_terminal_crash (gt : Score → Score → Bool) (O : Oracles Bool) (n : Nat) :
    gEx.over 100 = true ∧
    gEx.mcts 100 gt O n = (.error .oob, n) ∧
    Err.oob ≠ Err.invariant := by
  refine ⟨rfl, ?_, by decide⟩
  have hexp : (Tree.new 100 : Tree Nat Nat).expand gEx (Tree.new 100 : Tree Nat Nat).root
      = Tree.new 100 := rfl
  show Mcts.mcts gEx 100 gt O n = (.error .oob, n)
  simp only [Mcts.mcts]
  rw [hexp]
  rw [if_neg (by decide)]
  rw [mctsLoop_no_kids gEx gt O n 0 (WF_new 100) rfl (by decide)]
  rfl

/-! ## Claim C6: single-child fast path -/

/-- **C6.**  If the input state has exactly one legal action, `mcts` returns
that action immediately: the result is the same for every rollout/choice
oracle and every number of loop iterations, and the reported count of
`Node::simulate` invocations is `0` — the loop (and with it rollout and
backpropagation) never runs. -/
theorem C6_fast_path (g : Mcts σ π τ) [DecidableEq π] (s : σ) (a : τ)
    (h : g.turns s = [a]) (gt : Score → Score → Bool) (O : Oracles π) (n : Nat) :
    g.mcts s gt O n = (.ok a, 0) := by
  have h' : g.turns (((Tree.new s : Tree σ τ)).borrow_node
      (Tree.new s : Tree σ τ).root).state = [a] := h
  show Mcts.mcts g s gt O n = (.ok a, 0)
  simp only [Mcts.mcts]
  rw [Tree.expand_eq_foldl, h']
  rfl

/-- Witness for C6: the one-action state `1` of `gEx` returns its only turn
with zero rollouts. -/
theorem C6_fast_path_witness : gEx.mcts 1 gt0 O0 5 = (.ok 7, 0) :=
  C6_fast_path gEx 1 7 (by decide) gt0 O0 5

/-! ## Claim C7: robust-child final selection -/

/-- The running-maximum fold returns either the seed (then nothing in the
list beats it) or the first element of the list attaining the overall
maximum (strictly above the seed and everything before it). -/
theorem foldMax_spec (key : α → Nat) :
    ∀ (l : List α) (b : α),
      (foldMax key b l = b ∧ ∀ x ∈ l, key x ≤ key b) ∨
      (∃ k, ∃ hk : k < l.length, foldMax key b l = l.get ⟨k, hk⟩ ∧
        key b < key (l.get ⟨k, hk⟩) ∧
        (∀ x ∈ l.take k, key x < key (l.get ⟨k, hk⟩)) ∧
        (∀ x ∈ l, key x ≤ key (l.get ⟨k, hk⟩))) := by
  intro l
  induction l with
  | nil => intro b; exact Or.inl ⟨rfl, by simp⟩
  | cons c rs ih =>
    intro b
    have hstep : foldMax key b (c :: rs) = foldMax key (if key b < key c then c else b) rs :=
      rfl
    by_cases hbc : key b < key c
    · rw [hstep, if_pos hbc]
      rcases ih c with ⟨heq, hall⟩ | ⟨k, hk, heq, hlt, htake, hall⟩
      · refine Or.inr ⟨0, by simp, heq, hbc, by simp, ?_⟩
        intro x hx
        rcases List.mem_cons.mp hx with rfl | hx
        · exact Nat.le_refl _
        · exact hall x hx
      · refine Or.inr ⟨k+1, by simpa using Nat.succ_lt_succ hk, heq, ?_, ?_, ?_⟩
        · exact Nat.lt_trans hbc hlt
        · intro x hx
          rw [List.take_succ_cons] at hx
          rcases List.mem_cons.mp hx with rfl | hx
          · exact hlt
          · exact htake x hx
        · intro x hx
          rcases List.mem_cons.mp hx with rfl | hx
          · exact Nat.le_of_lt hlt
          · exact hall x hx
    · rw [hstep, if_neg hbc]
      rcases ih b with ⟨heq, hall⟩ | ⟨k, hk, heq, hlt, htake, hall⟩
      · refine Or.inl ⟨heq, ?_⟩
        intro x hx
        rcases List.mem_cons.mp hx with rfl | hx
        · exact Nat.le_of_not_lt hbc
        · exact hall x hx
      · refine Or.inr ⟨k+1, by simpa using Nat.succ_lt_succ hk, heq, hlt, ?_, ?_⟩
        · intro x hx
          rw [List.take_succ_cons] at hx
          rcases List.mem_cons.mp hx with rfl | hx
          · exact Nat.lt_of_le_of_lt (Nat.le_of_not_lt hbc) hlt
          · exact htake x hx
        · intro x hx
          rcases List.mem_cons.mp hx with rfl | hx
          · exact Nat.le_of_lt (Nat.lt_of_le_of_lt (Nat.le_of_not_lt hbc) hlt)
          · exact hall x hx

theorem robustFold_eq_foldMax (t : Tree σ τ) (l : List Nat) (b : Nat) :
    robustFold t l b = foldMax (fun c => (t.borrow_node c).sims) b l := rfl

/-- The code's full-list fold (seed = head, folding over the whole list)
returns the earliest index of the list attaining the maximal `sims`. -/
theorem robustFold_firstMax (t : Tree σ τ) (b : Nat) (rest : List Nat) :
    ∃ k, ∃ hk : k < (b :: rest).length,
      robustFold t (b :: rest) b = (b :: rest).get ⟨k, hk⟩ ∧
      (∀ d ∈ (b :: rest).take k,
        (t.borrow_node d).sims < (t.borrow_node ((b :: rest).get ⟨k, hk⟩)).sims) ∧
      (∀ d ∈ b :: rest,
        (t.borrow_node d).sims ≤ (t.borrow_node ((b :: rest).get ⟨k, hk⟩)).sims) := by
  set key : Nat → Nat := fun c => (t.borrow_node c).sims with hkey
  have hred : robustFold t (b :: rest) b = foldMax key b rest := by
    rw [robustFold_eq_foldMax]
    show foldMax key (if key b < key b then b else b) rest = foldMax key b rest
    rw [if_neg (Nat.lt_irrefl _)]
  rcases foldMax_spec key rest b with ⟨heq, hall⟩ | ⟨k, hk, heq, hlt, htake, hall⟩
  · refine ⟨0, by simp, by rw [hred, heq]; rfl, by simp, ?_⟩
    intro d hd
    rcases List.mem_cons.mp hd with rfl | hd
    · exact Nat.le_refl _
    · exact hall d hd
  · refine ⟨k+1, by simpa using Nat.succ_lt_succ hk, by rw [hred, heq]; rfl, ?_, ?_⟩
    · intro d hd
      rw [List.take_succ_cons] at hd
      rcases List.mem_cons.mp hd with rfl | hd
      · exact hlt
      · exact htake d hd
    · intro d hd
      rcases List.mem_cons.mp hd with rfl | hd
      · exact Nat.le_of_lt hlt
      · exact hall d hd

/-- **C7.**  When the fast path does not trigger and the loop's final tree
still has root children, `mcts` returns the action of the root child with the
greatest `sims` — exact ties broken by earliest insertion order (the child
sits at a position `k` of the children list with every earlier child strictly
smaller and no child larger) — regardless of any score or win count, for
every comparison function, oracle and iteration count. -/
theorem C7_robust_child [DecidableEq π] (g : Mcts σ π τ) (s : σ)
    (gt : Score → Score → Bool) (O : Oracles π) (n : Nat)
    (hfast : ¬ ((((Tree.new s : Tree σ τ).expand g (Tree.new s : Tree σ τ).root
        ).borrow_node ((Tree.new s : Tree σ τ).expand g
          (Tree.new s : Tree σ τ).root).root).children.length = 1))
    (hne : ¬ (rootKids ((Tree.new s : Tree σ τ).expand g
        (Tree.new s : Tree σ τ).root)).isEmpty) :
    ∃ c k a, ∃ hk : k < (rootKids (mctsLoop g gt O n 0
        ((Tree.new s : Tree σ τ).expand g (Tree.new s : Tree σ τ).root))).length,
      (rootKids (mctsLoop g gt O n 0 ((Tree.new s : Tree σ τ).expand g
        (Tree.new s : Tree σ τ).root))).get ⟨k, hk⟩ = c ∧
      ((mctsLoop g gt O n 0 ((Tree.new s : Tree σ τ).expand g
        (Tree.new s : Tree σ τ).root)).borrow_node c).action = some a ∧
      g.mcts s gt O n = (.ok a, n) ∧
      (∀ d ∈ rootKids (mctsLoop g gt O n 0 ((Tree.new s : Tree σ τ).expand g
          (Tree.new s : Tree σ τ).root)),
        ((mctsLoop g gt O n 0 ((Tree.new s : Tree σ τ).expand g
          (Tree.new s : Tree σ τ).root)).borrow_node d).sims
          ≤ ((mctsLoop g gt O n 0 ((Tree.new s : Tree σ τ).expand g
            (Tree.new s : Tree σ τ).root)).borrow_node c).sims) ∧
      (∀ d ∈ (rootKids (mctsLoop g gt O n 0 ((Tree.new s : Tree σ τ).expand g
          (Tree.new s : Tree σ τ).root))).take k,
        ((mctsLoop g gt O n 0 ((Tree.new s : Tree σ τ).expand g
          (Tree.new s : Tree σ τ).root)).borrow_node d).sims
          < ((mctsLoop g gt O n 0 ((Tree.new s : Tree σ τ).expand g
            (Tree.new s : Tree σ τ).root)).borrow_node c).sims) := by
  set t1 : Tree σ τ := (Tree.new s : Tree σ τ).expand g (Tree.new s : Tree σ τ).root
    with ht1
  have hwf1 : WF t1 := WF_expandRoot g s
  set t2 : Tree σ τ := mctsLoop g gt O n 0 t1 with ht2
  obtain ⟨hwf2, hkids2, _⟩ := mctsLoop_spec g gt O n 0 hwf1 hne
  have hkne : rootKids t2 ≠ [] := by
    intro h
    rw [ht2, hkids2] at h
    rw [h] at hne
    exact hne rfl
  obtain ⟨b, rest, hcons⟩ := List.exists_cons_of_ne_nil hkne
  obtain ⟨k, hk, hfold, htake, hall⟩ := robustFold_firstMax t2 b rest
  set c : Nat := (b :: rest).get ⟨k, hk⟩ with hc
  have hcmem : c ∈ rootKids t2 := by
    rw [hcons]
    exact List.get_mem _ k hk
  obtain ⟨hc0, hclen, _⟩ := hwf2.childmem 0 hwf2.pos c hcmem
  have hsome : ((t2.borrow_node c).action).isSome := hwf2.acts c hc0 hclen
  obtain ⟨a, haction⟩ := Option.isSome_iff_exists.mp hsome
  refine ⟨c, k, a, ?_⟩
  have hklt : k < (rootKids t2).length := by
    rw [hcons]
    exact hk
  refine ⟨hklt, ?_, haction, ?_, ?_, ?_⟩
  · show (rootKids t2).get ⟨k, hklt⟩ = c
    exact List.get_of_eq hcons ⟨k, hklt⟩
  · -- the run of `mcts`
    show Mcts.mcts g s gt O n = (.ok a, n)
    simp only [Mcts.mcts]
    rw [if_neg hfast]
    rw [hwf2.rootz]
    have hcons' : (t2.borrow_node 0).children = b :: rest := hcons
    rw [hcons']
    show (match (t2.borrow_node (robustFold t2 (b :: rest) b)).action with
      | some x => ((Except.ok x : Except Err τ), n)
      | none => ((Except.error Err.invariant : Except Err τ), n)) = (Except.ok a, n)
    rw [hfold, haction]
  · intro d hd
    rw [hcons] at hd
    exact hall d hd
  · intro d hd
    rw [hcons] at hd
    exact htake d hd

/-- Witness for C7: the two-action state `0` of `gEx`, zero loop iterations. -/
theorem C7_robust_child_witness :
    ∃ c k a, ∃ hk : k < (rootKids (mctsLoop gEx gt0 O0 0 0
        ((Tree.new 0 : Tree Nat Nat).expand gEx (Tree.new 0 : Tree Nat Nat).root))).length,
      (rootKids (mctsLoop gEx gt0 O0 0 0 ((Tree.new 0 : Tree Nat Nat).expand gEx
        (Tree.new 0 : Tree Nat Nat).root))).get ⟨k, hk⟩ = c ∧
      ((mctsLoop gEx gt0 O0 0 0 ((Tree.new 0 : Tree Nat Nat).expand gEx
        (Tree.new 0 : Tree Nat Nat).root)).borrow_node c).action = some a ∧
      gEx.mcts 0 gt0 O0 0 = (.ok a, 0) ∧
      (∀ d ∈ rootKids (mctsLoop gEx gt0 O0 0 0 ((Tree.new 0 : Tree Nat Nat).expand gEx
          (Tree.new 0 : Tree Nat Nat).root)),
        ((mctsLoop gEx gt0 O0 0 0 ((Tree.new 0 : Tree Nat Nat).expand gEx
          (Tree.new 0 : Tree Nat Nat).root)).borrow_node d).sims
          ≤ ((mctsLoop gEx gt0 O0 0 0 ((Tree.new 0 : Tree Nat Nat).expand gEx
            (Tree.new 0 : Tree Nat Nat).root)).borrow_node c).sims) ∧
      (∀ d ∈ (rootKids (mctsLoop gEx gt0 O0 0 0 ((Tree.new 0 : Tree Nat Nat).expand gEx
          (Tree.new 0 : Tree Nat Nat).root))).take k,
        ((mctsLoop gEx gt0 O0 0 0 ((Tree.new 0 : Tree Nat Nat).expand gEx
          (Tree.new 0 : Tree Nat Nat).root)).borrow_node d).sims
          < ((mctsLoop gEx gt0 O0 0 0 ((Tree.new 0 : Tree Nat Nat).expand gEx
            (Tree.new 0 : Tree Nat Nat).root)).borrow_node c).sims) :=
  C7_robust_child gEx 0 gt0 O0 0 (by decide) (by decide)

end MctsLib
